import Mathlib

/-!
# Verification of the `beap` crate (bi-parental heap)

A shallow embedding of the beap data structure from `src/core.rs`,
`src/lib.rs` and `src/mem.rs`, together with proofs about the embedded
operations.  The backing `Vec<T>` is modelled as a `List α` over a linear
order, and `usize` arithmetic as `Nat` (all subtractions performed by the
source are in range on the paths exercised by the theorems; `Nat`
truncated subtraction is noted wherever the source could underflow).
Out-of-bounds indexing, which panics in Rust, is modelled by
`List.getD _ _ default` for reads and by the no-op behaviour of
`List.set` for writes; every theorem below only exercises in-bounds
accesses except where a bug is being exhibited, and those cases are
flagged in the accompanying comments.
-/

set_option linter.unusedSectionVars false

variable {α : Type} [LinearOrder α] [Inhabited α]

/-- Read `data[i]`: in-bounds read of the backing vector (Rust panics
out of bounds; the embedding returns `default`, and all theorems stay
in bounds). -/
def getE (l : List α) (i : Nat) : α := l.getD i default

/-- `self.data.swap(i, j)`.  In-bounds it is the usual exchange; the
out-of-bounds case (a panic in Rust) leaves the list unchanged. -/
def swapL (l : List α) (i j : Nat) : List α :=
  match l.get? i, l.get? j with
  | some a, some b => (l.set i b).set j a
  | _, _ => l

/-- Start of block `b` (1-indexed blocks): `b*(b-1)/2`, from `span`. -/
def blockStart (b : Nat) : Nat := b * (b - 1) / 2

/-- Inclusive end of block `b`: `b*(b+1)/2 - 1`, from `span`. -/
def blockEnd (b : Nat) : Nat := b * (b + 1) / 2 - 1

/-- `span(b)` from `core.rs`: `None` for `b = 0`, otherwise the inclusive
flat-index range of block `b`. -/
def span (b : Nat) : Option (Nat × Nat) :=
  if b = 0 then none else some (blockStart b, blockEnd b)

/-- Flat index of the cell at block `b`, offset `p` within the block. -/
def flatIdx (b p : Nat) : Nat := blockStart b + p

/-- The parent index chosen by one iteration of the `siftup` loop in
`core.rs`: the block's first offset has only a right parent, the last
offset only a left parent, and otherwise the parent holding the smaller
value is chosen (ties go to the left parent). -/
def supParent (data : List α) (block pos : Nat) : Nat :=
  let start := block * (block - 1) / 2
  let pib := pos - start
  let prevStart := (block - 1) * (block - 2) / 2
  let prevEnd := (block - 1) * block / 2 - 1
  if 0 < pib then
    if pib = block - 1 then prevEnd
    else if getE data (prevStart + pib) < getE data (prevStart + pib - 1) then
      prevStart + pib
    else prevStart + pib - 1
  else prevStart

/-- The loop of `siftup` from `core.rs`.  One recursive call per loop
iteration; `block` strictly decreases. -/
def siftupGo (data : List α) (pos block : Nat) : List α :=
  if block < 2 then data
  else
    if getE data pos ≤ getE data (supParent data block pos) then data
    else siftupGo (swapL data pos (supParent data block pos))
      (supParent data block pos) (block - 1)
termination_by block

/-- `siftup` from `core.rs`: the early return for `span(block) == None`
(block 0) followed by the loop. -/
def siftup (data : List α) (pos block : Nat) : List α :=
  if block = 0 then data else siftupGo data pos block

/-- The first (left) child index used by the `siftdown` loop in
`core.rs`: `next_start + level_pos`. -/
def sdChild0 (block pos : Nat) : Nat :=
  (block + 1) * block / 2 + (pos - block * (block - 1) / 2)

/-- The child chosen by one iteration of the `siftdown` loop in
`core.rs`: the second child if it exists and holds the strictly larger
value, otherwise the first child. -/
def sdChild (data : List α) (block pos : Nat) : Nat :=
  if sdChild0 block pos + 1 < data.length ∧
      getE data (sdChild0 block pos) < getE data (sdChild0 block pos + 1) then
    sdChild0 block pos + 1
  else sdChild0 block pos

/-- The loop of `siftdown` from `core.rs`.  One recursive call per loop
iteration; `height - block` strictly decreases. -/
def siftdownGo (height : Nat) (data : List α) (pos block : Nat) : List α :=
  if height ≤ block then data
  else
    if sdChild0 block pos ≥ data.length then data
    else
      if getE data (sdChild data block pos) ≤ getE data pos then data
      else siftdownGo height (swapL data pos (sdChild data block pos))
        (sdChild data block pos) (block + 1)
termination_by height - block

/-- `siftdown` from `core.rs`: early return for block 0, then the loop. -/
def siftdown (height : Nat) (data : List α) (pos block : Nat) : List α :=
  if block = 0 then data else siftdownGo height data pos block

/-- The block number computed by `repair` in `core.rs`:
`((2 * (pos + 1)) as f64).sqrt().round() as usize`, modelled exactly over
the naturals (for `m : Nat`, `round (Real.sqrt m) = (Nat.sqrt (4*m) + 1) / 2`;
here `m = 2*(pos+1)`).  The f64 computation agrees with this wherever it
is exact. -/
def repairBlock (pos : Nat) : Nat := (Nat.sqrt (8 * (pos + 1)) + 1) / 2

/-- `repair` from `core.rs`: sift-down only from the root, otherwise
sift-up followed by sift-down from the block computed by `repairBlock`. -/
def repair (height : Nat) (data : List α) (pos : Nat) : List α :=
  if pos = 0 then siftdown height data 0 1
  else siftdown height (siftup data pos (repairBlock pos)) pos (repairBlock pos)

/-- `Beap<T>` from `lib.rs`: the backing vector and the current height. -/
structure Beap (α : Type) where
  data : List α
  height : Nat
deriving DecidableEq, Repr

/-- `Beap::new()`. -/
def Beap.empty (α : Type) : Beap α := ⟨[], 0⟩

/-- `Beap::push` from `core.rs`: grow the height if the current last
block is full, append the item, sift it up from the new last index. -/
def Beap.push (bp : Beap α) (x : α) : Beap α :=
  let h :=
    match span bp.height with
    | some (_, e) => if bp.data.length > e then bp.height + 1 else bp.height
    | none => 1
  let d := bp.data ++ [x]
  ⟨siftup d (d.length - 1) h, h⟩

/-- `Beap::pop` from `core.rs`: remove the last element; if anything
remains, shrink the height if its block emptied, swap the removed element
into the root and sift down, returning the old root. -/
def Beap.pop (bp : Beap α) : Option α × Beap α :=
  if bp.data = [] then (none, bp)
  else
    let item := getE bp.data (bp.data.length - 1)
    let d := bp.data.dropLast
    if d = [] then (some item, ⟨[], 0⟩)
    else
      match span bp.height with
      | none => (some item, ⟨d, bp.height⟩)
      | some (start, _) =>
        let h := if start = d.length then bp.height - 1 else bp.height
        (some (getE d 0), ⟨siftdown h (d.set 0 item) 0 1, h⟩)

/-- `Beap::pushpop` from `core.rs`. -/
def Beap.pushpop (bp : Beap α) (x : α) : α × Beap α :=
  if bp.data ≠ [] ∧ x < getE bp.data 0 then
    (getE bp.data 0, ⟨siftdown bp.height (bp.data.set 0 x) 0 1, bp.height⟩)
  else (x, bp)

/-- The search loop of `Beap::index` from `core.rs`, with an explicit
fuel argument standing in for the loop (the Rust loop terminates on the
states reachable from `Beap.index`, and the fuel chosen there is proved
sufficient; on garbage states the Rust code would panic on an index
underflow where the embedding returns `none`). -/
def indexGo (data : List α) (height : Nat) (val : α) (leftLow : Nat) :
    Nat → Nat → Nat → Option Nat
  | 0, _, _ => none
  | fuel + 1, pos, block =>
    if pos = leftLow then
      if getE data leftLow = val then some leftLow else none
    else if getE data pos = val then some pos
    else
      let start := block * (block - 1) / 2
      let bpos := pos - start
      if 1 < block ∧ 0 < bpos ∧ getE data pos < val then
        indexGo data height val leftLow fuel
          ((block - 1) * (block - 2) / 2 + bpos - 1) (block - 1)
      else if val < getE data pos ∧ block < height then
        if (block + 1) * block / 2 + bpos ≥ data.length then
          indexGo data height val leftLow fuel (pos - 1) block
        else
          indexGo data height val leftLow fuel
            ((block + 1) * block / 2 + bpos) (block + 1)
      else if 0 < bpos then indexGo data height val leftLow fuel (pos - 1) block
      else none

/-- `Beap::index` from `core.rs`: start at the top-right corner (the end
of the last fully occupied block) and walk the implicit matrix.
`2 * height + 2` fuel is enough for every walk the search performs
(each step strictly decreases `(height - block) + 2 * offset`,
which starts below `2 * height`). -/
def Beap.index (bp : Beap α) (val : α) : Option Nat :=
  match span bp.height with
  | none => none
  | some (leftLow, rightUp) =>
    if rightUp ≥ bp.data.length then
      indexGo bp.data bp.height val leftLow (2 * bp.height + 2)
        (blockEnd (bp.height - 1)) (bp.height - 1)
    else
      indexGo bp.data bp.height val leftLow (2 * bp.height + 2) rightUp bp.height

/-- `Beap::contains` from `core.rs`. -/
def Beap.contains (bp : Beap α) (val : α) : Bool := (bp.index val).isSome

/-- `Beap::remove_index` from `core.rs`.  Note the guard is
`pos > self.data.len()` in the source (not `>=`); the embedding keeps
that guard faithfully.  (On the path `pos == len(), len() >= 2` the
source indexes `self.data[pos]` out of bounds and panics; the embedding
is only evaluated away from that path.) -/
def Beap.removeIndex (bp : Beap α) (pos : Nat) : Option α × Beap α :=
  if pos > bp.data.length then (none, bp)
  else if bp.data = [] then (none, bp)
  else
    let item := getE bp.data (bp.data.length - 1)
    let d := bp.data.dropLast
    if d = [] then (some item, ⟨[], 0⟩)
    else
      match span bp.height with
      | none => (some item, ⟨d, bp.height⟩)
      | some (start, _) =>
        let h := if start = d.length then bp.height - 1 else bp.height
        if pos ≠ d.length then
          (some (getE d pos), ⟨repair h (d.set pos item) pos, h⟩)
        else (some item, ⟨d, h⟩)

/-- `Beap::remove` from `core.rs`. -/
def Beap.remove (bp : Beap α) (val : α) : Bool × Beap α :=
  match bp.index val with
  | some idx => (true, (bp.removeIndex idx).2)
  | none => (false, bp)

/-- `Beap::replace` from `core.rs`. -/
def Beap.replace (bp : Beap α) (old new : α) : Bool × Beap α :=
  match bp.index old with
  | some pos => (true, ⟨repair bp.height (bp.data.set pos new) pos, bp.height⟩)
  | none => (false, bp)

/-- `(lo..=hi).min_by_key(|&i| &self.data[i])`: the first index in
`[lo, hi]` holding a minimal value (Rust's `min_by_key` keeps the first
of equal minima). -/
def minKeyIdx (data : List α) (lo hi : Nat) : Nat :=
  (List.range' (lo + 1) (hi - lo)).foldl
    (fun c i => if getE data i < getE data c then i else c) lo

/-- The step function of `minKeyIdx`, named for the correctness proof. -/
def minFoldF (data : List α) (c i : Nat) : Nat :=
  if getE data i < getE data c then i else c

/-- `Beap::tail` from `core.rs`: `None` when empty; the root when
`height == 1`; otherwise the minimum over the occupied tail of the last
block (`empty` many slots of block `height` are vacant, so the scanned
range is shifted down by `empty`). -/
def Beap.tail (bp : Beap α) : Option α :=
  match span bp.height with
  | none => none
  | some (s, e) =>
    if bp.height = 1 then bp.data.head?
    else
      let empty := e + 1 - bp.data.length
      bp.data.get? (minKeyIdx bp.data (s - empty) (e - empty))

/-- `Beap::get` from `core.rs`. -/
def Beap.get (bp : Beap α) (pos : Nat) : Option α := bp.data.get? pos

/-- Canonical descending sort, modelling
`sort_unstable_by(|x, y| y.cmp(x))` (for values in a linear order the
descending reordering of a list is unique, so the choice of sorting
algorithm is immaterial). -/
def sortDesc (l : List α) : List α := List.insertionSort (fun a b => b ≤ a) l

/-- `Beap::append` from `core.rs`: zero the other height, move all
elements over, sort descending.  The source never touches
`self.height`, and the embedding faithfully keeps it unchanged. -/
def Beap.append (a b : Beap α) : Beap α × Beap α :=
  (⟨sortDesc (a.data ++ b.data), a.height⟩, ⟨[], 0⟩)

/-- `Beap::append_vec` from `core.rs` (again `self.height` is left
unchanged by the source). -/
def Beap.appendVec (a : Beap α) (l : List α) : Beap α × List α :=
  (⟨sortDesc (a.data ++ l), a.height⟩, [])

/-- `From<Vec<T>> for Beap<T>` from `mem.rs`: sort descending and set
`height = round(sqrt(2n))` (the f64 rounding modelled exactly, as in
`repairBlock`). -/
def beapFromList (l : List α) : Beap α :=
  ⟨sortDesc l, (Nat.sqrt (8 * l.length) + 1) / 2⟩

/-- `PeekMut` from `lib.rs`: the borrowed beap and the dirty flag. -/
structure PeekMutS (α : Type) where
  beap : Beap α
  sift : Bool

/-- `Beap::peek_mut`. -/
def Beap.peekMut (bp : Beap α) : Option (PeekMutS α) :=
  if bp.data = [] then none else some ⟨bp, false⟩

/-- A mutable dereference of a `PeekMut` followed by a store of `w`:
`DerefMut` sets the dirty flag and exposes `data[0]`, which the caller
overwrites. -/
def pmWrite (s : PeekMutS α) (w : α) : PeekMutS α :=
  ⟨⟨s.beap.data.set 0 w, s.beap.height⟩, true⟩

/-- `Drop for PeekMut` from `lib.rs`: sift down from the root exactly
when the dirty flag is set. -/
def pmDrop (s : PeekMutS α) : Beap α :=
  if s.sift then ⟨siftdown s.beap.height s.beap.data 0 1, s.beap.height⟩
  else s.beap

/-- `TailMut` from `lib.rs`: borrowed beap, dirty flag, recorded
position of the minimum. -/
structure TailMutS (α : Type) where
  beap : Beap α
  sift : Bool
  pos : Nat

/-- `Beap::tail_mut` from `core.rs`. -/
def Beap.tailMut (bp : Beap α) : Option (TailMutS α) :=
  match span bp.height with
  | none => none
  | some (s, e) =>
    let empty := e + 1 - bp.data.length
    some ⟨bp, false, minKeyIdx bp.data (s - empty) (e - empty)⟩

/-- A mutable dereference of a `TailMut` followed by a store of `w`. -/
def tmWrite (s : TailMutS α) (w : α) : TailMutS α :=
  ⟨⟨s.beap.data.set s.pos w, s.beap.height⟩, true, s.pos⟩

/-- `Drop for TailMut` from `lib.rs`: repair at the recorded position
exactly when the dirty flag is set. -/
def tmDrop (s : TailMutS α) : Beap α :=
  if s.sift then ⟨repair s.beap.height s.beap.data s.pos, s.beap.height⟩
  else s.beap

/-- `PosMut` handle returned by `Beap::get_mut` in `core.rs` (the struct
itself lives in a part of the crate not included under `src/`; only the
fields used by `get_mut` are modelled). -/
structure PosMutS (α : Type) where
  beap : Beap α
  sift : Bool
  pos : Nat

/-- `Beap::get_mut` from `core.rs`: a handle iff `pos` is in bounds. -/
def Beap.getMut (bp : Beap α) (pos : Nat) : Option (PosMutS α) :=
  if pos < bp.data.length then some ⟨bp, false, pos⟩ else none

/-- Repeated `pop` until the beap reports empty, collecting the returned
values (fuel = current length, which `pop` decreases by one). -/
def popAllGo : Nat → Beap α → List α
  | 0, _ => []
  | fuel + 1, bp =>
    match bp.pop with
    | (none, _) => []
    | (some v, bp') => v :: popAllGo fuel bp'

/-- All values obtained by popping the beap to exhaustion. -/
def Beap.popAll (bp : Beap α) : List α := popAllGo bp.data.length bp

/-- The beap invariant as maintained by the source (each element is
`≤` its one or two parents in the previous block; the root is the
maximum).  Quantifiers are bounded so the predicate is decidable; blocks
beyond `d.length` hold no in-range cells. -/
def BeapInv (d : List α) : Prop :=
  ∀ b, b < d.length + 1 → ∀ p, p < b →
    (2 ≤ b ∧ 0 < p ∧ flatIdx b p < d.length →
      getE d (flatIdx b p) ≤ getE d (flatIdx (b - 1) (p - 1))) ∧
    (2 ≤ b ∧ p + 1 < b ∧ flatIdx b p < d.length →
      getE d (flatIdx b p) ≤ getE d (flatIdx (b - 1) p))

instance (d : List α) : Decidable (BeapInv d) := by
  unfold BeapInv; infer_instance

/-- The height invariant: `height == 0` iff the data is empty, and
otherwise block `height` contains the last valid flat index. -/
def HeightInvP (h n : Nat) : Prop :=
  (h = 0 ↔ n = 0) ∧ (0 < n → blockStart h ≤ n - 1 ∧ n - 1 < blockStart h + h)

instance (h n : Nat) : Decidable (HeightInvP h n) := by
  unfold HeightInvP; infer_instance

/-- A well-formed beap: both invariants. -/
def Beap.Valid (bp : Beap α) : Prop :=
  BeapInv bp.data ∧ HeightInvP bp.height bp.data.length

instance (bp : Beap α) : Decidable bp.Valid := by
  unfold Beap.Valid; infer_instance

/-- The beap invariant in the direction the specification claims
(each element `≥` its parents) — written from the spec text of §3, for
comparison with `BeapInv` which is written from the source. -/
def specClaimedInv (d : List α) : Prop :=
  ∀ b, b < d.length + 1 → ∀ p, p < b →
    (2 ≤ b ∧ 0 < p ∧ flatIdx b p < d.length →
      getE d (flatIdx (b - 1) (p - 1)) ≤ getE d (flatIdx b p)) ∧
    (2 ≤ b ∧ p + 1 < b ∧ flatIdx b p < d.length →
      getE d (flatIdx (b - 1) p) ≤ getE d (flatIdx b p))

instance (d : List α) : Decidable (specClaimedInv d) := by
  unfold specClaimedInv; infer_instance

/-- The span-boundary formula exactly as the claim states it:
`span(height-1).end < len(data) <= span(height).end` — written from the
spec text, for comparison with `HeightInvP` which matches the source. -/
def specClaimedBoundary (h n : Nat) : Prop :=
  blockEnd (h - 1) < n ∧ n ≤ blockEnd h

instance (h n : Nat) : Decidable (specClaimedBoundary h n) := by
  unfold specClaimedBoundary; infer_instance

/-- The mutating operations quantified over by the invariant-preservation
claim (merge is treated separately; see the C5 analysis). -/
inductive BOp (α : Type) where
  | push (x : α)
  | pop
  | replace (old new : α)
  | remove (v : α)

/-- Apply one public mutating operation. -/
def applyOp (bp : Beap α) : BOp α → Beap α
  | .push x => bp.push x
  | .pop => bp.pop.2
  | .replace o n => (bp.replace o n).2
  | .remove v => (bp.remove v).2

/-- Apply a sequence of public mutating operations. -/
def applyOps (bp : Beap α) (ops : List (BOp α)) : Beap α :=
  ops.foldl applyOp bp

/-- Cell `(b2, p2)` is a parent (left or right) of cell `(b, p)`:
parents live in the previous block at offsets `p - 1` and `p` (the
first offset has no left parent, the last offset no right parent). -/
def parOf (b p b2 p2 : Nat) : Prop :=
  2 ≤ b ∧ p < b ∧ b2 + 1 = b ∧ ((p2 + 1 = p) ∨ (p2 = p ∧ p + 1 < b))

/-- All parent-child edges of the triangular layout hold on `d`
(unbounded formulation of the beap invariant used by the proofs). -/
def InvAll (d : List α) : Prop :=
  ∀ b p b2 p2, parOf b p b2 p2 → flatIdx b p < d.length →
    getE d (flatIdx b p) ≤ getE d (flatIdx b2 p2)

/-- All edges hold except possibly those whose parent end is the flat
position `ex` (the "down" edges of `ex`). -/
def InvExcDown (d : List α) (ex : Nat) : Prop :=
  ∀ b p b2 p2, parOf b p b2 p2 → flatIdx b p < d.length →
    flatIdx b2 p2 ≠ ex →
    getE d (flatIdx b p) ≤ getE d (flatIdx b2 p2)

/-- All edges hold except possibly those incident to the flat position
`ex` (its "up" edges and its "down" edges). -/
def InvExcUD (d : List α) (ex : Nat) : Prop :=
  ∀ b p b2 p2, parOf b p b2 p2 → flatIdx b p < d.length →
    flatIdx b p ≠ ex → flatIdx b2 p2 ≠ ex →
    getE d (flatIdx b p) ≤ getE d (flatIdx b2 p2)

/-- A mediator value for cell `(b, p)`: at least every in-range child,
at most every parent.  This is the invariant that makes sift-up and
sift-down restore the beap property after an in-place change. -/
def Med (d : List α) (b p : Nat) : Prop :=
  ∃ v, (∀ b2 p2, parOf b2 p2 b p → flatIdx b2 p2 < d.length →
          getE d (flatIdx b2 p2) ≤ v) ∧
       (∀ b2 p2, parOf b p b2 p2 → v ≤ getE d (flatIdx b2 p2))

/-- The down edges of cell `(b, p)` hold: every in-range child is `≤`
the value at `(b, p)`. -/
def DownOKc (d : List α) (b p : Nat) : Prop :=
  ∀ b2 p2, parOf b2 p2 b p → flatIdx b2 p2 < d.length →
    getE d (flatIdx b2 p2) ≤ getE d (flatIdx b p)

/-- The up edges of cell `(b, p)` hold: its value is `≤` every parent. -/
def UpOKc (d : List α) (b p : Nat) : Prop :=
  ∀ b2 p2, parOf b p b2 p2 →
    getE d (flatIdx b p) ≤ getE d (flatIdx b2 p2)

/-- The candidate region of the `index` search: flat indices whose cell
lies in matrix rows at or below and matrix columns at or left of the
cell `(b, p)` (matrix row of a cell is `block - offset - 1`, matrix
column is its offset). -/
def Reg (b p i : Nat) : Prop :=
  ∃ b2 p2, 0 < b2 ∧ p2 < b2 ∧ i = flatIdx b2 p2 ∧ p2 ≤ p ∧ b - p ≤ b2 - p2

/-! ## Arithmetic of the triangular layout -/

lemma two_mul_blockStart (b : Nat) : 2 * blockStart b = b * (b - 1) := by
  unfold blockStart
  refine Nat.mul_div_cancel' ?_
  cases b with
  | zero => simp
  | succ k =>
    have h := Nat.even_mul_succ_self k
    simpa [Nat.succ_sub_one, Nat.mul_comm] using h.two_dvd

lemma blockStart_succ (b : Nat) : blockStart (b + 1) = blockStart b + b := by
  have h1 := two_mul_blockStart b
  have h2 := two_mul_blockStart (b + 1)
  have h3 : (b + 1) * (b + 1 - 1) = b * (b - 1) + 2 * b := by
    cases b with
    | zero => rfl
    | succ k => simp only [Nat.succ_sub_one]; ring
  omega

lemma blockStart_mono {b b2 : Nat} (h : b ≤ b2) : blockStart b ≤ blockStart b2 := by
  induction b2 with
  | zero => simp [Nat.le_zero.mp h]
  | succ k ih =>
    rcases Nat.lt_or_ge b (k + 1) with h2 | h2
    · have := ih (by omega)
      rw [blockStart_succ]; omega
    · have hbe : b = k + 1 := by omega
      rw [hbe]

lemma flatIdx_lt_next {b p : Nat} (h : p < b) : flatIdx b p < blockStart (b + 1) := by
  unfold flatIdx; rw [blockStart_succ]; omega

lemma flatIdx_inj {b p b2 p2 : Nat} (hb : 0 < b) (hp : p < b) (hb2 : 0 < b2)
    (hp2 : p2 < b2) (heq : flatIdx b p = flatIdx b2 p2) : b = b2 ∧ p = p2 := by
  rcases Nat.lt_trichotomy b b2 with h | h | h
  · exfalso
    have h1 := flatIdx_lt_next hp
    have h2 := blockStart_mono (show b + 1 ≤ b2 by omega)
    have h3 : blockStart b2 ≤ flatIdx b2 p2 := Nat.le_add_right _ _
    omega
  · refine ⟨h, ?_⟩
    subst h
    unfold flatIdx at heq; omega
  · exfalso
    have h1 := flatIdx_lt_next hp2
    have h2 := blockStart_mono (show b2 + 1 ≤ b by omega)
    have h3 : blockStart b ≤ flatIdx b p := Nat.le_add_right _ _
    omega

lemma cell_exists (i : Nat) : ∃ b p, 0 < b ∧ p < b ∧ i = flatIdx b p := by
  induction i with
  | zero => exact ⟨1, 0, Nat.one_pos, Nat.one_pos, rfl⟩
  | succ k ih =>
    obtain ⟨b, p, hb, hp, hk⟩ := ih
    by_cases h : p + 1 < b
    · refine ⟨b, p + 1, hb, h, ?_⟩
      unfold flatIdx at hk ⊢; omega
    · refine ⟨b + 1, 0, by omega, by omega, ?_⟩
      have h2 := blockStart_succ b
      unfold flatIdx at hk ⊢; omega

lemma flatIdx_pos_of_big {b p : Nat} (hb : 2 ≤ b) : 0 < flatIdx b p := by
  have : blockStart 2 ≤ blockStart b := blockStart_mono hb
  have : (1 : Nat) = blockStart 2 := rfl
  unfold flatIdx; omega

lemma parOf_flat_lt {b p b2 p2 : Nat} (h : parOf b p b2 p2) :
    flatIdx b2 p2 < flatIdx b p := by
  obtain ⟨hb, hp, hb2, hcase⟩ := h
  have h1 : flatIdx b2 p2 < blockStart (b2 + 1) := by
    refine flatIdx_lt_next ?_
    rcases hcase with ⟨h3⟩ | ⟨h3, h4⟩ <;> omega
  have h2 : blockStart b ≤ flatIdx b p := Nat.le_add_right _ _
  rw [hb2] at h1; omega

lemma parOf_valid {b p b2 p2 : Nat} (h : parOf b p b2 p2) :
    0 < b2 ∧ p2 < b2 := by
  obtain ⟨hb, hp, hb2, hcase⟩ := h
  rcases hcase with ⟨h3⟩ | ⟨h3, h4⟩ <;> omega

lemma repairBlock_eq {b p : Nat} (hb : 1 ≤ b) (hp : p < b)
    (hpos : 1 ≤ flatIdx b p) : repairBlock (flatIdx b p) = b := by
  have hS := two_mul_blockStart b
  have hlow : blockStart b ≤ flatIdx b p := Nat.le_add_right _ _
  have hhigh : flatIdx b p < blockStart b + b := by unfold flatIdx; omega
  obtain ⟨t, rfl⟩ : ∃ t, b = t + 1 := ⟨b - 1, by omega⟩
  have h1 : 4 * ((t + 1) * t) + 8 ≤ 8 * (flatIdx (t + 1) p + 1) := by
    simp only [Nat.succ_sub_one] at hS; omega
  have h2 : 8 * (flatIdx (t + 1) p + 1) ≤ 4 * ((t + 1) * t) + 8 * (t + 1) := by
    simp only [Nat.succ_sub_one] at hS; omega
  have hs1 : 2 * t + 1 ≤ Nat.sqrt (8 * (flatIdx (t + 1) p + 1)) := by
    rw [Nat.le_sqrt]
    nlinarith
  have hs2 : Nat.sqrt (8 * (flatIdx (t + 1) p + 1)) < 2 * t + 3 := by
    rw [Nat.sqrt_lt]
    nlinarith
  unfold repairBlock
  omega

/-! ## List access and swap lemmas -/

lemma getE_eq_getElem (l : List α) (i : Nat) (h : i < l.length) :
    getE l i = l[i] := by
  simp [getE, List.getD_eq_getElem?_getD, List.getElem?_eq_getElem h]

lemma getE_set_self (l : List α) (i : Nat) (a : α) (h : i < l.length) :
    getE (l.set i a) i = a := by
  simp [getE, List.getD_eq_getElem?_getD, List.getElem?_set_self h]

lemma getE_set_ne (l : List α) (i j : Nat) (a : α) (h : i ≠ j) :
    getE (l.set i a) j = getE l j := by
  simp [getE, List.getD_eq_getElem?_getD, List.getElem?_set, h]

lemma getE_append_left (l l2 : List α) (i : Nat) (h : i < l.length) :
    getE (l ++ l2) i = getE l i := by
  simp [getE, List.getD_eq_getElem?_getD, List.getElem?_append, h]

lemma getE_concat_self (l : List α) (x : α) :
    getE (l ++ [x]) l.length = x := by
  simp [getE, List.getD_eq_getElem?_getD, List.getElem?_concat_length]

lemma getE_dropLast (l : List α) (i : Nat) (h : i < l.length - 1) :
    getE l.dropLast i = getE l i := by
  simp [getE, List.getD_eq_getElem?_getD, List.getElem?_dropLast, h,
    List.getElem?_eq_getElem (show i < l.length by omega)]

lemma swapL_length (l : List α) (i j : Nat) :
    (swapL l i j).length = l.length := by
  unfold swapL
  cases h1 : l.get? i <;> cases h2 : l.get? j <;> simp

lemma getE_swapL_fst (l : List α) (i j : Nat) (hi : i < l.length)
    (hj : j < l.length) : getE (swapL l i j) i = getE l j := by
  unfold swapL
  rw [List.get?_eq_getElem?, List.get?_eq_getElem?,
    List.getElem?_eq_getElem hi, List.getElem?_eq_getElem hj]
  by_cases h : i = j
  · subst h
    rw [getE_set_self _ _ _ (by simpa using hi), getE_eq_getElem _ _ hi]
  · rw [getE_set_ne _ _ _ _ (Ne.symm h), getE_set_self _ _ _ hi,
      getE_eq_getElem _ _ hj]

lemma getE_swapL_snd (l : List α) (i j : Nat) (hi : i < l.length)
    (hj : j < l.length) : getE (swapL l i j) j = getE l i := by
  unfold swapL
  rw [List.get?_eq_getElem?, List.get?_eq_getElem?,
    List.getElem?_eq_getElem hi, List.getElem?_eq_getElem hj]
  rw [getE_set_self _ _ _ (by simpa using hj), getE_eq_getElem _ _ hi]

lemma getE_swapL_other (l : List α) (i j k : Nat) (hki : k ≠ i) (hkj : k ≠ j) :
    getE (swapL l i j) k = getE l k := by
  unfold swapL
  cases h1 : l.get? i <;> cases h2 : l.get? j <;> try rfl
  rw [getE_set_ne _ _ _ _ (Ne.symm hkj), getE_set_ne _ _ _ _ (Ne.symm hki)]

lemma cons_set_perm : ∀ (t : List α) (m : Nat) (a : α), m < t.length →
    List.Perm (getE t m :: t.set m a) (a :: t) := by
  intro t
  induction t with
  | nil => intro m a h; simp at h
  | cons c t2 ih =>
    intro m a h
    cases m with
    | zero =>
      simp only [List.getD_cons_zero, getE, List.set_cons_zero]
      exact List.Perm.swap a c t2
    | succ m =>
      simp only [getE, List.getD_cons_succ, List.set_cons_succ]
      exact ((List.Perm.swap c (getE t2 m) (t2.set m a)).trans
        (((ih m a (by simpa using h)).cons c).trans (List.Perm.swap a c t2)))

lemma set_set_perm2 : ∀ (l : List α) (i j : Nat), i < l.length → j < l.length →
    List.Perm ((l.set i (getE l j)).set j (getE l i)) l := by
  intro l
  induction l with
  | nil => intro i j hi; simp at hi
  | cons a t ih =>
    intro i j hi hj
    cases i with
    | zero =>
      cases j with
      | zero => simp [getE]
      | succ j =>
        simp only [getE, List.getD_cons_zero, List.getD_cons_succ,
          List.set_cons_zero, List.set_cons_succ]
        exact cons_set_perm t j a (by simpa using hj)
    | succ i =>
      cases j with
      | zero =>
        simp only [getE, List.getD_cons_zero, List.getD_cons_succ,
          List.set_cons_zero, List.set_cons_succ]
        exact cons_set_perm t i a (by simpa using hi)
      | succ j =>
        simp only [getE, List.getD_cons_succ, List.set_cons_succ]
        exact ((ih i j (by simpa using hi) (by simpa using hj)).cons a)

lemma blockStart_one_eq (b : Nat) : blockStart (b + 1) = b * (b + 1) / 2 := by
  unfold blockStart
  congr 1
  simp only [Nat.add_sub_cancel]
  ring

lemma blockEnd_succ_eq (b : Nat) (hb : 1 ≤ b) :
    blockEnd b + 1 = blockStart (b + 1) := by
  obtain ⟨t, rfl⟩ : ∃ t, b = t + 1 := ⟨b - 1, by omega⟩
  unfold blockEnd
  rw [← blockStart_one_eq (t + 1)]
  have h1 := blockStart_succ (t + 1)
  omega

lemma swapL_perm (l : List α) (i j : Nat) : List.Perm (swapL l i j) l := by
  unfold swapL
  cases h1 : l.get? i with
  | none => exact List.Perm.refl l
  | some a =>
    cases h2 : l.get? j with
    | none => exact List.Perm.refl l
    | some b =>
      obtain ⟨hi, ha⟩ := List.get?_eq_some.mp h1
      obtain ⟨hj, hb⟩ := List.get?_eq_some.mp h2
      have ha2 : b = getE l j := by
        rw [getE_eq_getElem _ _ hj, ← hb]; rfl
      have hb2 : a = getE l i := by
        rw [getE_eq_getElem _ _ hi, ← ha]; rfl
      rw [ha2, hb2]
      exact set_set_perm2 l i j hi hj

/-! ## The sift routines only permute the backing sequence -/

lemma siftupGo_perm (b : Nat) : ∀ (d : List α) (pos : Nat),
    List.Perm (siftupGo d pos b) d := by
  induction b using Nat.strong_induction_on with
  | _ b ih =>
    intro d pos
    rw [siftupGo]
    split
    · exact List.Perm.refl d
    · split
      · exact List.Perm.refl d
      · exact (ih (b - 1) (by omega) _ _).trans (swapL_perm d pos _)

lemma siftdownGo_perm (height : Nat) : ∀ (k : Nat) (d : List α) (pos block : Nat),
    height - block ≤ k → List.Perm (siftdownGo height d pos block) d := by
  intro k
  induction k with
  | zero =>
    intro d pos block h
    rw [siftdownGo, if_pos (by omega : height ≤ block)]
  | succ k ih =>
    intro d pos block h
    rw [siftdownGo]
    split
    · exact List.Perm.refl d
    · split
      · exact List.Perm.refl d
      · split
        · exact List.Perm.refl d
        · exact (ih _ _ _ (by omega)).trans (swapL_perm d pos _)

lemma siftup_perm (d : List α) (pos b : Nat) : List.Perm (siftup d pos b) d := by
  unfold siftup
  split
  · exact List.Perm.refl d
  · exact siftupGo_perm b d pos

lemma siftdown_perm (height : Nat) (d : List α) (pos b : Nat) :
    List.Perm (siftdown height d pos b) d := by
  unfold siftdown
  split
  · exact List.Perm.refl d
  · exact siftdownGo_perm height (height - b) d pos b (Nat.le_refl _)

lemma repair_perm (height : Nat) (d : List α) (pos : Nat) :
    List.Perm (repair height d pos) d := by
  unfold repair
  split
  · exact siftdown_perm height d 0 1
  · exact (siftdown_perm height _ pos _).trans (siftup_perm d pos _)

lemma siftup_length (d : List α) (pos b : Nat) :
    (siftup d pos b).length = d.length :=
  (siftup_perm d pos b).length_eq

lemma siftdown_length (height : Nat) (d : List α) (pos b : Nat) :
    (siftdown height d pos b).length = d.length :=
  (siftdown_perm height d pos b).length_eq

lemma repair_length (height : Nat) (d : List α) (pos : Nat) :
    (repair height d pos).length = d.length :=
  (repair_perm height d pos).length_eq

/-! ## Bridging the decidable invariant and the proof-side formulation -/

lemma blockStart_ge_sub_one (b : Nat) : b - 1 ≤ blockStart b := by
  have h := two_mul_blockStart b
  rcases Nat.lt_or_ge b 2 with h2 | h2
  · interval_cases b <;> simp [blockStart]
  · have h3 : 2 * (b - 1) ≤ b * (b - 1) :=
      Nat.mul_le_mul_right (b - 1) h2
    omega

lemma beapInv_iff_invAll (d : List α) : BeapInv d ↔ InvAll d := by
  constructor
  · intro h b p b2 p2 hpar hn
    obtain ⟨hb, hp, hb2, hcase⟩ := hpar
    have hblt : b < d.length + 1 := by
      have h1 := blockStart_ge_sub_one b
      have h2 : blockStart b ≤ flatIdx b p := Nat.le_add_right _ _
      omega
    rcases hcase with h3 | ⟨h3, h4⟩
    · have := (h b hblt p hp).1 ⟨hb, by omega, hn⟩
      have he : b2 = b - 1 ∧ p2 = p - 1 := by omega
      rw [he.1, he.2]
      exact this
    · have := (h b hblt p hp).2 ⟨hb, by omega, hn⟩
      have he : b2 = b - 1 := by omega
      rw [he, h3]
      exact this
  · intro h b _ p hp
    constructor
    · rintro ⟨hb, hp0, hn⟩
      exact h b p (b - 1) (p - 1) ⟨hb, hp, by omega, Or.inl (by omega)⟩ hn
    · rintro ⟨hb, hp1, hn⟩
      exact h b p (b - 1) p ⟨hb, hp, by omega, Or.inr ⟨rfl, hp1⟩⟩ hn

lemma invAll_invExcDown (d : List α) (ex : Nat) (h : InvAll d) : InvExcDown d ex :=
  fun b p b2 p2 hpar hn _ => h b p b2 p2 hpar hn

lemma invAll_invExcUD (d : List α) (ex : Nat) (h : InvAll d) : InvExcUD d ex :=
  fun b p b2 p2 hpar hn _ _ => h b p b2 p2 hpar hn

lemma invAll_med (d : List α) (b p : Nat) (h : InvAll d) (hb : 0 < b)
    (hp : p < b) (hn : flatIdx b p < d.length) : Med d b p := by
  refine ⟨getE d (flatIdx b p), ?_, ?_⟩
  · intro b2 p2 hpar hn2
    exact h b2 p2 b p hpar hn2
  · intro b2 p2 hpar
    exact h b p b2 p2 hpar hn

/-- If all edges except those with parent `(b, p)` hold, the up edges of
`(b, p)` hold, and its down edges hold, then all edges hold. -/
lemma invAll_of_parts {d : List α} {b p : Nat} (hb : 0 < b) (hp : p < b)
    (hInv : InvExcDown d (flatIdx b p)) (hDown : DownOKc d b p) : InvAll d := by
  intro b1 p1 b2 p2 hpar hn
  by_cases hw : flatIdx b2 p2 = flatIdx b p
  · obtain ⟨hb2, hp2⟩ := parOf_valid hpar
    obtain ⟨he1, he2⟩ := flatIdx_inj hb2 hp2 hb hp hw
    refine le_trans (hDown b1 p1 ?_ hn) (le_of_eq ?_)
    · rw [← he1, ← he2]; exact hpar
    · rw [hw]
  · exact hInv b1 p1 b2 p2 hpar hn hw

/-- If all edges not incident to `(b, p)` hold and both the up and down
edges of `(b, p)` hold, then all edges hold. -/
lemma invAll_of_ud_parts {d : List α} {b p : Nat} (hb : 0 < b) (hp : p < b)
    (hInv : InvExcUD d (flatIdx b p)) (hUp : UpOKc d b p)
    (hDown : DownOKc d b p) : InvAll d := by
  refine invAll_of_parts hb hp ?_ hDown
  intro b1 p1 b2 p2 hpar hn hw
  by_cases hu : flatIdx b1 p1 = flatIdx b p
  · obtain ⟨hb1, hp1, hb2, hcase⟩ := hpar
    obtain ⟨he1, he2⟩ := flatIdx_inj (by omega) hp1 hb hp hu
    rw [hu]
    refine le_trans (le_of_eq (congrArg (getE d) hu.symm)) ?_
    rw [hu]
    refine hUp b2 p2 ?_
    rw [← he1, ← he2]
    exact ⟨hb1, hp1, hb2, hcase⟩
  · exact hInv b1 p1 b2 p2 hpar hn hu hw

/-! ## Characterizing the chosen parent and child -/

lemma flat_sub_blockStart (b p : Nat) : flatIdx b p - b * (b - 1) / 2 = p := by
  unfold flatIdx blockStart; omega

lemma sdChild0_eq (b p : Nat) : sdChild0 b (flatIdx b p) = flatIdx (b + 1) p := by
  unfold sdChild0
  rw [flat_sub_blockStart]
  rfl

lemma prevStart_eq (b : Nat) : (b - 1) * (b - 2) / 2 = blockStart (b - 1) := by
  rfl

lemma prevEnd_eq (b : Nat) (hb : 2 ≤ b) :
    (b - 1) * b / 2 - 1 = flatIdx (b - 1) (b - 2) := by
  have h1 : (b - 1) * b = b * (b - 1) := Nat.mul_comm _ _
  have h2 := two_mul_blockStart b
  have h3 := blockStart_succ (b - 1)
  have h4 : b - 1 + 1 = b := by omega
  rw [h4] at h3
  have h5 := blockStart_ge_sub_one b
  unfold flatIdx
  omega

lemma supParent_spec (d : List α) (b p : Nat) (hb : 2 ≤ b) (hp : p < b) :
    ∃ pq, parOf b p (b - 1) pq ∧
      supParent d b (flatIdx b p) = flatIdx (b - 1) pq ∧
      ∀ b2 p2, parOf b p b2 p2 →
        getE d (flatIdx (b - 1) pq) ≤ getE d (flatIdx b2 p2) := by
  unfold supParent
  dsimp only
  rw [flat_sub_blockStart]
  by_cases hp0 : 0 < p
  · rw [if_pos hp0]
    by_cases hpb : p = b - 1
    · rw [if_pos hpb, prevEnd_eq b hb]
      refine ⟨b - 2, ⟨hb, hp, by omega, Or.inl (by omega)⟩, rfl, ?_⟩
      rintro b2 p2 ⟨_, _, hb2, hcase⟩
      rcases hcase with h3 | ⟨h3, h4⟩
      · have he : b2 = b - 1 ∧ p2 = b - 2 := by omega
        rw [he.1, he.2]
      · omega
    · rw [if_neg hpb]
      have hpb2 : p + 1 < b := by omega
      have hL : (b - 1) * (b - 2) / 2 + p - 1 = flatIdx (b - 1) (p - 1) := by
        rw [prevStart_eq b]; unfold flatIdx; omega
      have hR : (b - 1) * (b - 2) / 2 + p = flatIdx (b - 1) p := by
        rw [prevStart_eq b]; rfl
      by_cases hcmp : getE d ((b - 1) * (b - 2) / 2 + p) <
          getE d ((b - 1) * (b - 2) / 2 + p - 1)
      · rw [if_pos hcmp, hR]
        rw [hL, hR] at hcmp
        refine ⟨p, ⟨hb, hp, by omega, Or.inr ⟨rfl, hpb2⟩⟩, rfl, ?_⟩
        rintro b2 p2 ⟨_, _, hb2, hcase⟩
        rcases hcase with h3 | ⟨h3, h4⟩
        · have he : b2 = b - 1 ∧ p2 = p - 1 := by omega
          rw [he.1, he.2]
          exact hcmp.le
        · have he : b2 = b - 1 ∧ p2 = p := by omega
          rw [he.1, he.2]
      · rw [if_neg hcmp, hL]
        rw [hL, hR] at hcmp
        push_neg at hcmp
        refine ⟨p - 1, ⟨hb, hp, by omega, Or.inl (by omega)⟩, rfl, ?_⟩
        rintro b2 p2 ⟨_, _, hb2, hcase⟩
        rcases hcase with h3 | ⟨h3, h4⟩
        · have he : b2 = b - 1 ∧ p2 = p - 1 := by omega
          rw [he.1, he.2]
        · have he : b2 = b - 1 ∧ p2 = p := by omega
          rw [he.1, he.2]
          exact hcmp
  · rw [if_neg hp0, prevStart_eq b]
    have hp0' : p = 0 := by omega
    subst hp0'
    refine ⟨0, ⟨hb, hp, by omega, Or.inr ⟨rfl, by omega⟩⟩, by simp [flatIdx], ?_⟩
    rintro b2 p2 ⟨_, _, hb2, hcase⟩
    rcases hcase with h3 | ⟨h3, h4⟩
    · omega
    · have he : b2 = b - 1 ∧ p2 = 0 := by omega
      rw [he.1, he.2]

lemma sdChild_spec (d : List α) (b p : Nat) (hb : 1 ≤ b) (hp : p < b)
    (hc0 : flatIdx (b + 1) p < d.length) :
    ∃ pc, parOf (b + 1) pc b p ∧
      sdChild d b (flatIdx b p) = flatIdx (b + 1) pc ∧
      flatIdx (b + 1) pc < d.length ∧
      ∀ p2, parOf (b + 1) p2 b p → flatIdx (b + 1) p2 < d.length →
        getE d (flatIdx (b + 1) p2) ≤ getE d (flatIdx (b + 1) pc) := by
  have hsucc : flatIdx (b + 1) p + 1 = flatIdx (b + 1) (p + 1) := by
    unfold flatIdx; omega
  unfold sdChild
  rw [sdChild0_eq]
  by_cases hcond : flatIdx (b + 1) p + 1 < d.length ∧
      getE d (flatIdx (b + 1) p) < getE d (flatIdx (b + 1) p + 1)
  · rw [if_pos hcond]
    obtain ⟨h1, h2⟩ := hcond
    rw [hsucc] at h1 h2 ⊢
    refine ⟨p + 1, ⟨by omega, by omega, rfl, Or.inl rfl⟩, rfl, h1, ?_⟩
    rintro p2 ⟨_, hp2, _, hcase⟩ hn2
    have he : p2 = p ∨ p2 = p + 1 := by omega
    rcases he with he | he
    · rw [he]; exact h2.le
    · rw [he]
  · rw [if_neg hcond]
    push_neg at hcond
    refine ⟨p, ⟨by omega, by omega, rfl, Or.inr ⟨rfl, by omega⟩⟩, rfl, hc0, ?_⟩
    rintro p2 ⟨_, hp2, _, hcase⟩ hn2
    have he : p2 = p ∨ p2 = p + 1 := by omega
    rcases he with he | he
    · rw [he]
    · rw [he]
      rw [he, ← hsucc] at hn2
      have h5 := hcond hn2
      rw [hsucc] at h5
      exact h5

/-! ## Swap preservation for sift-down and sift-up -/

lemma flat_ne_of_block_ne {b1 p1 b2 p2 : Nat} (h1 : 0 < b1) (hp1 : p1 < b1)
    (h2 : 0 < b2) (hp2 : p2 < b2) (hne : b1 ≠ b2) :
    flatIdx b1 p1 ≠ flatIdx b2 p2 :=
  fun h => hne (flatIdx_inj h1 hp1 h2 hp2 h).1

lemma siftdown_swap_pres (d : List α) (b p pc : Nat) (hb : 1 ≤ b) (hp : p < b)
    (hn : flatIdx b p < d.length)
    (hparc : parOf (b + 1) pc b p)
    (hcn : flatIdx (b + 1) pc < d.length)
    (hmax : ∀ p2, parOf (b + 1) p2 b p → flatIdx (b + 1) p2 < d.length →
      getE d (flatIdx (b + 1) p2) ≤ getE d (flatIdx (b + 1) pc))
    (hlt : getE d (flatIdx b p) < getE d (flatIdx (b + 1) pc))
    (hInv : InvExcDown d (flatIdx b p)) (hMed : Med d b p) :
    InvExcDown (swapL d (flatIdx b p) (flatIdx (b + 1) pc)) (flatIdx (b + 1) pc) ∧
    Med (swapL d (flatIdx b p) (flatIdx (b + 1) pc)) (b + 1) pc := by
  have hPC : flatIdx b p < flatIdx (b + 1) pc := parOf_flat_lt hparc
  constructor
  · intro b1 p1 b2 p2 hpar hn1 hne
    rw [swapL_length] at hn1
    obtain ⟨h2b1, hp1, hb21, hcase⟩ := hpar
    have hval2 := parOf_valid ⟨h2b1, hp1, hb21, hcase⟩
    have hwu : flatIdx b2 p2 < flatIdx b1 p1 :=
      parOf_flat_lt ⟨h2b1, hp1, hb21, hcase⟩
    by_cases huC : flatIdx b1 p1 = flatIdx (b + 1) pc
    · by_cases hwP : flatIdx b2 p2 = flatIdx b p
      · rw [huC, hwP, getE_swapL_snd _ _ _ hn hcn, getE_swapL_fst _ _ _ hn hcn]
        exact hlt.le
      · rw [huC, getE_swapL_snd _ _ _ hn hcn,
          getE_swapL_other _ _ _ _ hwP hne]
        have h6 := hInv b1 p1 b2 p2 ⟨h2b1, hp1, hb21, hcase⟩ hn1 hwP
        rw [huC] at h6
        exact le_trans hlt.le h6
    · by_cases huP : flatIdx b1 p1 = flatIdx b p
      · obtain ⟨he1, he2⟩ := flatIdx_inj (by omega) hp1 (by omega) hp huP
        have hwP : flatIdx b2 p2 ≠ flatIdx b p := by omega
        have hwC : flatIdx b2 p2 ≠ flatIdx (b + 1) pc := by omega
        rw [huP, getE_swapL_fst _ _ _ hn hcn,
          getE_swapL_other _ _ _ _ hwP hwC]
        obtain ⟨v, hvc, hvp⟩ := hMed
        refine le_trans (hvc (b + 1) pc hparc hcn) (hvp b2 p2 ?_)
        rw [← he1, ← he2]
        exact ⟨h2b1, hp1, hb21, hcase⟩
      · rw [getE_swapL_other _ _ _ _ huP huC]
        by_cases hwP : flatIdx b2 p2 = flatIdx b p
        · obtain ⟨he1, he2⟩ := flatIdx_inj (by omega) hval2.2 (by omega) hp hwP
          have hb1e : b1 = b + 1 := by omega
          rw [hwP, getE_swapL_fst _ _ _ hn hcn, hb1e]
          rw [hb1e] at hn1
          refine hmax p1 ⟨by omega, by omega, rfl, ?_⟩ hn1
          rcases hcase with h3 | ⟨h3, h4⟩
          · exact Or.inl (by omega)
          · exact Or.inr ⟨by omega, by omega⟩
        · rw [getE_swapL_other _ _ _ _ hwP hne]
          exact hInv b1 p1 b2 p2 ⟨h2b1, hp1, hb21, hcase⟩ hn1 hwP
  · refine ⟨getE d (flatIdx (b + 1) pc), ?_, ?_⟩
    · intro b1 p1 hpar1 hn1
      rw [swapL_length] at hn1
      have hCu : flatIdx (b + 1) pc < flatIdx b1 p1 := parOf_flat_lt hpar1
      have hPu : flatIdx b1 p1 ≠ flatIdx b p := by omega
      have hCu2 : flatIdx b1 p1 ≠ flatIdx (b + 1) pc := by omega
      rw [getE_swapL_other _ _ _ _ hPu hCu2]
      exact hInv b1 p1 (b + 1) pc hpar1 hn1 (by omega)
    · intro b2 p2 hpar2
      have hb2e : b2 = b := by
        have := hpar2.2.2.1
        omega
      rw [hb2e] at hpar2 ⊢
      by_cases hwP : flatIdx b p2 = flatIdx b p
      · rw [hwP, getE_swapL_fst _ _ _ hn hcn]
      · have hwC : flatIdx b p2 ≠ flatIdx (b + 1) pc := by
          have := parOf_flat_lt hpar2
          omega
        rw [getE_swapL_other _ _ _ _ hwP hwC]
        exact hInv (b + 1) pc b p2 hpar2 hcn hwP

lemma siftup_swap_pres (d : List α) (b p pq : Nat) (hb : 2 ≤ b) (hp : p < b)
    (hn : flatIdx b p < d.length)
    (hparq : parOf b p (b - 1) pq)
    (hmin : ∀ b2 p2, parOf b p b2 p2 →
      getE d (flatIdx (b - 1) pq) ≤ getE d (flatIdx b2 p2))
    (hlt : getE d (flatIdx (b - 1) pq) < getE d (flatIdx b p))
    (hInv : InvExcUD d (flatIdx b p)) (hMed : Med d b p) :
    InvExcUD (swapL d (flatIdx b p) (flatIdx (b - 1) pq)) (flatIdx (b - 1) pq) ∧
    Med (swapL d (flatIdx b p) (flatIdx (b - 1) pq)) (b - 1) pq ∧
    DownOKc (swapL d (flatIdx b p) (flatIdx (b - 1) pq)) (b - 1) pq := by
  have hQP : flatIdx (b - 1) pq < flatIdx b p := parOf_flat_lt hparq
  have hqn : flatIdx (b - 1) pq < d.length := lt_trans hQP hn
  have hqv := parOf_valid hparq
  refine ⟨?_, ?_, ?_⟩
  · intro b1 p1 b2 p2 hpar hn1 hu hw
    rw [swapL_length] at hn1
    obtain ⟨h2b1, hp1, hb21, hcase⟩ := hpar
    have hval2 := parOf_valid ⟨h2b1, hp1, hb21, hcase⟩
    have hwu : flatIdx b2 p2 < flatIdx b1 p1 :=
      parOf_flat_lt ⟨h2b1, hp1, hb21, hcase⟩
    by_cases huP : flatIdx b1 p1 = flatIdx b p
    · obtain ⟨he1, he2⟩ := flatIdx_inj (by omega) hp1 (by omega) hp huP
      have hwP : flatIdx b2 p2 ≠ flatIdx b p := by omega
      rw [huP, getE_swapL_fst _ _ _ hn hqn,
        getE_swapL_other _ _ _ _ hwP hw]
      refine hmin b2 p2 ?_
      rw [← he1, ← he2]
      exact ⟨h2b1, hp1, hb21, hcase⟩
    · rw [getE_swapL_other _ _ _ _ huP hu]
      by_cases hwP : flatIdx b2 p2 = flatIdx b p
      · obtain ⟨he1, he2⟩ := flatIdx_inj (by omega) hval2.2 (by omega) hp hwP
        rw [hwP, getE_swapL_fst _ _ _ hn hqn]
        obtain ⟨v, hvc, hvp⟩ := hMed
        refine le_trans (hvc b1 p1 ?_ hn1) (hvp (b - 1) pq hparq)
        rw [← he1, ← he2]
        exact ⟨h2b1, hp1, hb21, hcase⟩
      · rw [getE_swapL_other _ _ _ _ hwP hw]
        exact hInv b1 p1 b2 p2 ⟨h2b1, hp1, hb21, hcase⟩ hn1 huP hwP
  · refine ⟨getE d (flatIdx (b - 1) pq), ?_, ?_⟩
    · intro b1 p1 hpar1 hn1
      rw [swapL_length] at hn1
      have hb1e : b1 = b := by
        have := hpar1.2.2.1
        omega
      rw [hb1e] at hpar1 hn1 ⊢
      by_cases huP : flatIdx b p1 = flatIdx b p
      · rw [huP, getE_swapL_fst _ _ _ hn hqn]
      · have huQ : flatIdx b p1 ≠ flatIdx (b - 1) pq :=
          flat_ne_of_block_ne (by omega) hpar1.2.1 (by omega) hqv.2 (by omega)
        rw [getE_swapL_other _ _ _ _ huP huQ]
        exact hInv b p1 (b - 1) pq hpar1 hn1 huP (by omega)
    · intro b2 p2 hpar2
      have hgQ := parOf_flat_lt hpar2
      rw [getE_swapL_other _ _ _ _ (by omega) (by omega)]
      exact hInv (b - 1) pq b2 p2 hpar2 hqn (by omega) (by omega)
  · intro b1 p1 hpar1 hn1
    rw [swapL_length] at hn1
    have hb1e : b1 = b := by
      have := hpar1.2.2.1
      omega
    rw [hb1e] at hpar1 hn1 ⊢
    rw [getE_swapL_snd _ _ _ hn hqn]
    by_cases huP : flatIdx b p1 = flatIdx b p
    · rw [huP, getE_swapL_fst _ _ _ hn hqn]
      exact hlt.le
    · have huQ : flatIdx b p1 ≠ flatIdx (b - 1) pq :=
        flat_ne_of_block_ne (by omega) hpar1.2.1 (by omega) hqv.2 (by omega)
      rw [getE_swapL_other _ _ _ _ huP huQ]
      exact le_trans (hInv b p1 (b - 1) pq hpar1 hn1 huP (by omega)) hlt.le

/-! ## Loop correctness of sift-down, sift-up and repair -/

lemma invAll_of_excDown_oor {d : List α} {b p : Nat} (hb : 0 < b) (hp : p < b)
    (hInv : InvExcDown d (flatIdx b p)) (hoor : d.length ≤ flatIdx (b + 1) p) :
    InvAll d := by
  refine invAll_of_parts hb hp hInv ?_
  intro b1 p1 hpar1 hn1
  exfalso
  have hb1e : b1 = b + 1 := by
    have := hpar1.2.2.1
    omega
  rw [hb1e] at hn1
  have hple : p ≤ p1 := by
    have := hpar1.2.2.2
    omega
  have hmono : flatIdx (b + 1) p ≤ flatIdx (b + 1) p1 := by
    unfold flatIdx; omega
  omega

lemma siftdownGo_ok (height : Nat) : ∀ (k : Nat) (d : List α) (b p : Nat),
    height - b ≤ k → 1 ≤ b → p < b → flatIdx b p < d.length →
    d.length ≤ blockStart (height + 1) →
    InvExcDown d (flatIdx b p) → Med d b p →
    InvAll (siftdownGo height d (flatIdx b p) b) := by
  intro k
  induction k with
  | zero =>
    intro d b p hk hb hp hn hlen hInv hMed
    rw [siftdownGo, if_pos (by omega : height ≤ b)]
    refine invAll_of_excDown_oor (by omega) hp hInv ?_
    have h1 : blockStart (height + 1) ≤ blockStart (b + 1) :=
      blockStart_mono (by omega)
    have h2 : blockStart (b + 1) ≤ flatIdx (b + 1) p := Nat.le_add_right _ _
    omega
  | succ k ih =>
    intro d b p hk hb hp hn hlen hInv hMed
    rw [siftdownGo]
    by_cases hstop : height ≤ b
    · rw [if_pos hstop]
      refine invAll_of_excDown_oor (by omega) hp hInv ?_
      have h1 : blockStart (height + 1) ≤ blockStart (b + 1) :=
        blockStart_mono (by omega)
      have h2 : blockStart (b + 1) ≤ flatIdx (b + 1) p := Nat.le_add_right _ _
      omega
    · rw [if_neg hstop]
      by_cases hoor : sdChild0 b (flatIdx b p) ≥ d.length
      · rw [if_pos hoor]
        rw [sdChild0_eq] at hoor
        exact invAll_of_excDown_oor (by omega) hp hInv hoor
      · rw [if_neg hoor]
        push_neg at hoor
        rw [sdChild0_eq] at hoor
        obtain ⟨pc, hparc, hceq, hcn, hmax⟩ := sdChild_spec d b p hb hp hoor
        by_cases hle : getE d (sdChild d b (flatIdx b p)) ≤ getE d (flatIdx b p)
        · rw [if_pos hle]
          rw [hceq] at hle
          refine invAll_of_parts (by omega) hp hInv ?_
          intro b1 p1 hpar1 hn1
          have hb1e : b1 = b + 1 := by
            have := hpar1.2.2.1
            omega
          rw [hb1e] at hpar1 hn1 ⊢
          exact le_trans (hmax p1 hpar1 hn1) hle
        · rw [if_neg hle]
          rw [hceq] at hle ⊢
          push_neg at hle
          obtain ⟨hInv2, hMed2⟩ := siftdown_swap_pres d b p pc hb hp hn
            hparc hcn hmax hle hInv hMed
          refine ih (swapL d (flatIdx b p) (flatIdx (b + 1) pc)) (b + 1) pc
            (by omega) (by omega) hparc.2.1 ?_ ?_ hInv2 hMed2
          · rw [swapL_length]; exact hcn
          · rw [swapL_length]; exact hlen

lemma siftupGo_full (b : Nat) : ∀ (d : List α) (p : Nat), 1 ≤ b → p < b →
    flatIdx b p < d.length → InvExcUD d (flatIdx b p) → Med d b p →
    DownOKc d b p → InvAll (siftupGo d (flatIdx b p) b) := by
  induction b using Nat.strong_induction_on with
  | _ b ih =>
    intro d p hb hp hn hInv hMed hDown
    rw [siftupGo]
    by_cases hb2 : b < 2
    · rw [if_pos hb2]
      refine invAll_of_ud_parts (by omega) hp hInv ?_ hDown
      intro b2 p2 hpar2
      exact absurd hpar2.1 (by omega)
    · rw [if_neg hb2]
      obtain ⟨pq, hparq, hqeq, hmin⟩ := supParent_spec d b p (by omega) hp
      by_cases hle : getE d (flatIdx b p) ≤ getE d (supParent d b (flatIdx b p))
      · rw [if_pos hle]
        rw [hqeq] at hle
        refine invAll_of_ud_parts (by omega) hp hInv ?_ hDown
        intro b2 p2 hpar2
        exact le_trans hle (hmin b2 p2 hpar2)
      · rw [if_neg hle]
        rw [hqeq] at hle ⊢
        push_neg at hle
        obtain ⟨hInv2, hMed2, hDown2⟩ := siftup_swap_pres d b p pq
          (by omega) hp hn hparq hmin hle hInv hMed
        have hqv := parOf_valid hparq
        refine ih (b - 1) (by omega) _ pq (by omega) hqv.2 ?_ hInv2 hMed2 hDown2
        rw [swapL_length]
        exact lt_trans (parOf_flat_lt hparq) hn

lemma siftupGo_exc (b : Nat) (d : List α) (p : Nat) (hb : 1 ≤ b) (hp : p < b)
    (hn : flatIdx b p < d.length) (hInv : InvExcUD d (flatIdx b p))
    (hMed : Med d b p) :
    InvExcDown (siftupGo d (flatIdx b p) b) (flatIdx b p) ∧
    Med (siftupGo d (flatIdx b p) b) b p ∧
    (siftupGo d (flatIdx b p) b).length = d.length := by
  rw [siftupGo]
  by_cases hb2 : b < 2
  · rw [if_pos hb2]
    refine ⟨?_, hMed, rfl⟩
    intro b1 p1 b2 p2 hpar hn1 hw
    by_cases hu : flatIdx b1 p1 = flatIdx b p
    · exfalso
      obtain ⟨he1, he2⟩ := flatIdx_inj (by
        have := hpar.1
        omega) hpar.2.1 (by omega) hp hu
      have := hpar.1
      omega
    · exact hInv b1 p1 b2 p2 hpar hn1 hu hw
  · rw [if_neg hb2]
    obtain ⟨pq, hparq, hqeq, hmin⟩ := supParent_spec d b p (by omega) hp
    by_cases hle : getE d (flatIdx b p) ≤ getE d (supParent d b (flatIdx b p))
    · rw [if_pos hle]
      rw [hqeq] at hle
      refine ⟨?_, hMed, rfl⟩
      intro b1 p1 b2 p2 hpar hn1 hw
      by_cases hu : flatIdx b1 p1 = flatIdx b p
      · obtain ⟨h2b1, hp1, hb21, hcase⟩ := hpar
        obtain ⟨he1, he2⟩ := flatIdx_inj (by omega) hp1 (by omega) hp hu
        rw [hu]
        refine le_trans hle (hmin b2 p2 ?_)
        rw [← he1, ← he2]
        exact ⟨h2b1, hp1, hb21, hcase⟩
      · exact hInv b1 p1 b2 p2 hpar hn1 hu hw
    · rw [if_neg hle]
      rw [hqeq] at hle ⊢
      push_neg at hle
      obtain ⟨hInv2, hMed2, hDown2⟩ := siftup_swap_pres d b p pq
        (by omega) hp hn hparq hmin hle hInv hMed
      have hqv := parOf_valid hparq
      have hfull : InvAll (siftupGo
          (swapL d (flatIdx b p) (flatIdx (b - 1) pq)) (flatIdx (b - 1) pq)
          (b - 1)) := by
        refine siftupGo_full (b - 1) _ pq (by omega) hqv.2 ?_ hInv2 hMed2 hDown2
        rw [swapL_length]
        exact lt_trans (parOf_flat_lt hparq) hn
      have hlen2 : (siftupGo (swapL d (flatIdx b p) (flatIdx (b - 1) pq))
          (flatIdx (b - 1) pq) (b - 1)).length = d.length := by
        rw [(siftupGo_perm (b - 1) _ _).length_eq, swapL_length]
      refine ⟨invAll_invExcDown _ _ hfull, ?_, hlen2⟩
      refine invAll_med _ b p hfull (by omega) hp ?_
      rw [hlen2]
      exact hn

lemma repair_ok (height : Nat) (d : List α) (b p : Nat) (hb : 1 ≤ b)
    (hp : p < b) (hn : flatIdx b p < d.length)
    (hlen : d.length ≤ blockStart (height + 1))
    (hInv : InvExcUD d (flatIdx b p)) (hMed : Med d b p) :
    InvAll (repair height d (flatIdx b p)) := by
  unfold repair
  by_cases hz : flatIdx b p = 0
  · rw [if_pos hz]
    have hcell : b = 1 ∧ p = 0 := by
      have h0 : flatIdx b p = flatIdx 1 0 := by rw [hz]; rfl
      exact flatIdx_inj (by omega) hp (by omega) (by omega) h0
    rw [hcell.1, hcell.2] at hn hInv hMed
    unfold siftdown
    rw [if_neg (by omega : ¬ (1 : Nat) = 0)]
    show InvAll (siftdownGo height d (flatIdx 1 0) 1)
    refine siftdownGo_ok height (height - 1) d 1 0 (le_refl _) (by omega)
      (by omega) hn hlen ?_ hMed
    intro b1 p1 b2 p2 hpar hn1 hw
    refine hInv b1 p1 b2 p2 hpar hn1 ?_ hw
    have h9 := flatIdx_pos_of_big (b := b1) (p := p1) hpar.1
    have h10 : flatIdx 1 0 = 0 := rfl
    omega
  · rw [if_neg hz]
    have hrb : repairBlock (flatIdx b p) = b := repairBlock_eq hb hp (by omega)
    rw [hrb]
    unfold siftup siftdown
    rw [if_neg (by omega : ¬ b = 0), if_neg (by omega : ¬ b = 0)]
    obtain ⟨hInvD, hMedD, hlenD⟩ := siftupGo_exc b d p hb hp hn hInv hMed
    refine siftdownGo_ok height (height - b) _ b p (le_refl _) hb hp ?_ ?_
      hInvD hMedD
    · rw [hlenD]; exact hn
    · rw [hlenD]; exact hlen

/-! ## Operation-level lemmas -/

lemma heightInv_len_le {h n : Nat} (hi : HeightInvP h n) :
    n ≤ blockStart (h + 1) := by
  have hs := blockStart_succ h
  rcases Nat.eq_zero_or_pos n with h0 | h0
  · omega
  · have := hi.2 h0
    omega

lemma getE_last (l : List α) (hne : l ≠ []) :
    l.dropLast ++ [getE l (l.length - 1)] = l := by
  have h1 : l.length - 1 < l.length := by
    cases l with
    | nil => exact absurd rfl hne
    | cons a t => simp
  rw [getE_eq_getElem l _ h1, ← List.getLast_eq_getElem]
  exact List.dropLast_append_getLast hne

lemma invAll_dropLast (d : List α) (h : InvAll d) : InvAll d.dropLast := by
  intro b1 p1 b2 p2 hpar hn1
  rw [List.length_dropLast] at hn1
  have hwu : flatIdx b2 p2 < flatIdx b1 p1 := parOf_flat_lt hpar
  rw [getE_dropLast _ _ hn1, getE_dropLast _ _ (by omega)]
  exact h b1 p1 b2 p2 hpar (by omega)

lemma root_is_max (d : List α) (h : InvAll d) :
    ∀ i, i < d.length → getE d i ≤ getE d 0 := by
  intro i
  induction i using Nat.strong_induction_on with
  | _ i ih =>
    intro hi
    rcases Nat.eq_zero_or_pos i with h0 | h0
    · rw [h0]
    · obtain ⟨b, p, hb, hp, hcell⟩ := cell_exists i
      have hb2 : 2 ≤ b := by
        by_contra hc
        have hb1 : b = 1 := by omega
        rw [hb1] at hp hcell
        have hp0 : p = 0 := by omega
        rw [hp0] at hcell
        have : flatIdx 1 0 = 0 := rfl
        omega
      rcases Nat.eq_zero_or_pos p with hp0 | hp0
      · have hpar : parOf b p (b - 1) p := ⟨hb2, hp, by omega, Or.inr ⟨rfl, by omega⟩⟩
        have hlt := parOf_flat_lt hpar
        rw [hcell]
        refine le_trans (h b p (b - 1) p hpar (by omega)) ?_
        exact ih (flatIdx (b - 1) p) (by omega) (by omega)
      · have hpar : parOf b p (b - 1) (p - 1) := ⟨hb2, hp, by omega, Or.inl (by omega)⟩
        have hlt := parOf_flat_lt hpar
        rw [hcell]
        refine le_trans (h b p (b - 1) (p - 1) hpar (by omega)) ?_
        exact ih (flatIdx (b - 1) (p - 1)) (by omega) (by omega)

/-- The new height computed by `push` still satisfies the height
invariant, and the appended slot is exactly the next free cell. -/
lemma push_height_fits {h n : Nat} (hi : HeightInvP h n) :
    ∀ h2, ((h = 0 ∧ h2 = 1) ∨
      (1 ≤ h ∧ n > blockEnd h ∧ h2 = h + 1) ∨
      (1 ≤ h ∧ n ≤ blockEnd h ∧ h2 = h)) →
    blockStart h2 ≤ n ∧ n < blockStart h2 + h2 ∧ HeightInvP h2 (n + 1) := by
  intro h2 hcases
  have hs := blockStart_succ h
  have hs2 := blockStart_succ h2
  rcases hcases with ⟨h0, he⟩ | ⟨h1, hgt, he⟩ | ⟨h1, hle, he⟩
  · have hn0 : n = 0 := hi.1.mp h0
    have hb1 : blockStart 1 = 0 := rfl
    subst he
    refine ⟨by omega, by omega, ?_⟩
    exact ⟨by omega, fun _ => by omega⟩
  · have hbe := blockEnd_succ_eq h h1
    have hn0 : 0 < n := by
      rcases Nat.eq_zero_or_pos n with h0 | h0
      · exact absurd (hi.1.mpr h0) (by omega)
      · exact h0
    have hbd := hi.2 hn0
    have hne : n = blockEnd h + 1 := by omega
    subst he
    have hs3 := blockStart_succ (h + 1)
    refine ⟨by omega, by omega, ⟨by omega, fun _ => by omega⟩⟩
  · have hbe := blockEnd_succ_eq h h1
    have hn0 : 0 < n := by
      rcases Nat.eq_zero_or_pos n with h0 | h0
      · exact absurd (hi.1.mpr h0) (by omega)
      · exact h0
    have hbd := hi.2 hn0
    subst he
    refine ⟨by omega, by omega, ⟨by omega, fun _ => by omega⟩⟩

/-- The decremented height computed by `pop`/`remove_index` satisfies
the height invariant on the shortened data. -/
lemma pop_height_fits {h n : Nat} (hi : HeightInvP h n) (hn2 : 2 ≤ n) :
    ∀ h2, ((blockStart h = n - 1 ∧ h2 = h - 1) ∨
      (blockStart h ≠ n - 1 ∧ h2 = h)) →
    HeightInvP h2 (n - 1) := by
  intro h2 hcases
  have hh1 : 1 ≤ h := by
    rcases Nat.eq_zero_or_pos h with h0 | h0
    · have := hi.1.mp h0
      omega
    · exact h0
  have hbd := hi.2 (by omega)
  have hs := blockStart_succ h
  rcases hcases with ⟨heq, he⟩ | ⟨hne, he⟩
  · have hh2 : 2 ≤ h := by
      by_contra hc
      have hb1 : h = 1 := by omega
      rw [hb1] at heq
      have : blockStart 1 = 0 := rfl
      omega
    have hs4 : blockStart h = blockStart (h - 1) + (h - 1) := by
      have := blockStart_succ (h - 1)
      have h5 : h - 1 + 1 = h := by omega
      rw [h5] at this
      omega
    subst he
    exact ⟨by omega, fun _ => by omega⟩
  · subst he
    exact ⟨by omega, fun _ => by omega⟩

/-- Writing an arbitrary value into the root and sifting down restores
the invariant. -/
lemma rootRepl_ok (height : Nat) (d : List α) (x : α) (hd : InvAll d)
    (hn : 0 < d.length) (hlen : d.length ≤ blockStart (height + 1)) :
    InvAll (siftdown height (d.set 0 x) 0 1) := by
  unfold siftdown
  rw [if_neg (by omega : ¬ (1 : Nat) = 0)]
  show InvAll (siftdownGo height (d.set 0 x) (flatIdx 1 0) 1)
  have h00 : flatIdx 1 0 = 0 := rfl
  refine siftdownGo_ok height (height - 1) _ 1 0 (le_refl _) (by omega)
    (by omega) (by simp [h00, List.length_set]; omega) (by rw [List.length_set]; exact hlen) ?_ ?_
  · intro b1 p1 b2 p2 hpar hn1 hw
    rw [List.length_set] at hn1
    have hupos := flatIdx_pos_of_big (b := b1) (p := p1) hpar.1
    have hwpos : flatIdx b2 p2 ≠ 0 := by rw [h00] at hw; exact hw
    rw [getE_set_ne _ _ _ _ (by omega), getE_set_ne _ _ _ _ (by omega)]
    exact hd b1 p1 b2 p2 hpar hn1
  · refine ⟨getE d 0, ?_, ?_⟩
    · intro b1 p1 hpar1 hn1
      rw [List.length_set] at hn1
      have hupos := flatIdx_pos_of_big (b := b1) (p := p1) hpar1.1
      rw [getE_set_ne _ _ _ _ (by omega)]
      have h0cell : (0 : Nat) = flatIdx 1 0 := rfl
      have := hd b1 p1 1 0 hpar1 hn1
      rw [← h0cell] at this
      exact this
    · intro b2 p2 hpar2
      exact absurd hpar2.1 (by omega)

/-- Writing an arbitrary value at an in-range position and repairing
restores the invariant. -/
lemma setRepair_ok (height : Nat) (d : List α) (x : α) (pos : Nat)
    (hd : InvAll d) (hpos : pos < d.length)
    (hlen : d.length ≤ blockStart (height + 1)) :
    InvAll (repair height (d.set pos x) pos) := by
  obtain ⟨b, p, hb, hp, hcell⟩ := cell_exists pos
  rw [hcell]
  refine repair_ok height _ b p hb hp
    (by rw [List.length_set, ← hcell]; exact hpos)
    (by rw [List.length_set]; exact hlen) ?_ ?_
  · intro b1 p1 b2 p2 hpar hn1 hu hw
    rw [List.length_set] at hn1
    rw [getE_set_ne _ _ _ _ (Ne.symm hu), getE_set_ne _ _ _ _ (Ne.symm hw)]
    exact hd b1 p1 b2 p2 hpar hn1
  · refine ⟨getE d pos, ?_, ?_⟩
    · intro b1 p1 hpar1 hn1
      rw [List.length_set] at hn1
      have hlt := parOf_flat_lt hpar1
      rw [← hcell] at hlt
      rw [getE_set_ne _ _ _ _ (by omega)]
      have := hd b1 p1 b p hpar1 hn1
      rw [← hcell] at this
      exact this
    · intro b2 p2 hpar2
      have hlt := parOf_flat_lt hpar2
      rw [← hcell] at hlt
      rw [getE_set_ne _ _ _ _ (by omega)]
      have := hd b p b2 p2 hpar2 (by omega)
      rw [← hcell] at this
      exact this

lemma BeapInv_nil : BeapInv ([] : List α) := by
  intro b hb p hp
  constructor
  · rintro ⟨_, _, hn⟩
    simp [flatIdx] at hn
  · rintro ⟨_, _, hn⟩
    simp [flatIdx] at hn

lemma push_core (d : List α) (x : α) (h2 : Nat) (hd : InvAll d)
    (hfit1 : blockStart h2 ≤ d.length) (hfit2 : d.length < blockStart h2 + h2) :
    InvAll (siftup (d ++ [x]) d.length h2) ∧
    (siftup (d ++ [x]) d.length h2).length = d.length + 1 ∧
    List.Perm (siftup (d ++ [x]) d.length h2) (x :: d) := by
  have hh2 : 1 ≤ h2 := by
    rcases Nat.eq_zero_or_pos h2 with h0 | h0
    · rw [h0] at hfit2; simp [blockStart] at hfit2
    · exact h0
  have hcell : d.length = flatIdx h2 (d.length - blockStart h2) := by
    unfold flatIdx; omega
  have hp : d.length - blockStart h2 < h2 := by omega
  have hlen2 : (siftup (d ++ [x]) d.length h2).length = d.length + 1 := by
    rw [siftup_length, List.length_append]; rfl
  have hperm : List.Perm (siftup (d ++ [x]) d.length h2) (x :: d) :=
    (siftup_perm _ _ _).trans (List.perm_append_singleton x d)
  have hoor : ∀ b1 p1, parOf b1 p1 h2 (d.length - blockStart h2) →
      ¬ flatIdx b1 p1 < (d ++ [x]).length := by
    intro b1 p1 hpar1 hcon
    rw [List.length_append] at hcon
    have hb1e : b1 = h2 + 1 := by
      have := hpar1.2.2.1
      omega
    have hple : d.length - blockStart h2 ≤ p1 := by
      have := hpar1.2.2.2
      omega
    have hs := blockStart_succ h2
    rw [hb1e] at hcon
    unfold flatIdx at hcon
    simp at hcon
    omega
  refine ⟨?_, hlen2, hperm⟩
  unfold siftup
  rw [if_neg (by omega : ¬ h2 = 0)]
  rw [hcell]
  refine siftupGo_full h2 (d ++ [x]) _ hh2 hp ?_ ?_ ?_ ?_
  · rw [List.length_append, ← hcell]
    simp
  · intro b1 p1 b2 p2 hpar hn1 hu hw
    rw [List.length_append] at hn1
    rw [← hcell] at hu hw
    simp at hn1
    have hu2 : flatIdx b1 p1 < d.length := by omega
    have hw2 : flatIdx b2 p2 < d.length := lt_trans (parOf_flat_lt hpar) hu2
    rw [getE_append_left _ _ _ hu2, getE_append_left _ _ _ hw2]
    exact hd b1 p1 b2 p2 hpar hu2
  · by_cases hh21 : h2 < 2
    · refine ⟨x, ?_, ?_⟩
      · intro b1 p1 hpar1 hn1
        exact absurd hn1 (hoor b1 p1 hpar1)
      · intro b2 p2 hpar2
        exact absurd hpar2.1 (by omega)
    · obtain ⟨pq, hparq, hqeq, hmin⟩ :=
        supParent_spec (d ++ [x]) h2 (d.length - blockStart h2) (by omega) hp
      refine ⟨getE (d ++ [x]) (flatIdx (h2 - 1) pq), ?_, hmin⟩
      intro b1 p1 hpar1 hn1
      exact absurd hn1 (hoor b1 p1 hpar1)
  · intro b1 p1 hpar1 hn1
    exact absurd hn1 (hoor b1 p1 hpar1)

lemma push_eq_zero (bp : Beap α) (x : α) (hb : bp.height = 0) :
    bp.push x = ⟨siftup (bp.data ++ [x]) bp.data.length 1, 1⟩ := by
  unfold Beap.push span
  rw [if_pos hb]
  simp

lemma push_eq_pos (bp : Beap α) (x : α) (hb : bp.height ≠ 0) :
    bp.push x = ⟨siftup (bp.data ++ [x]) bp.data.length
      (if bp.data.length > blockEnd bp.height then bp.height + 1 else bp.height),
      if bp.data.length > blockEnd bp.height then bp.height + 1
      else bp.height⟩ := by
  unfold Beap.push span
  rw [if_neg hb]
  simp

lemma push_valid (bp : Beap α) (x : α) (h : bp.Valid) :
    (bp.push x).Valid ∧ (bp.push x).data.length = bp.data.length + 1 ∧
    List.Perm (bp.push x).data (x :: bp.data) := by
  obtain ⟨hinv, hhi⟩ := h
  have hA := (beapInv_iff_invAll _).mp hinv
  by_cases hb : bp.height = 0
  · rw [push_eq_zero bp x hb]
    obtain ⟨hfit1, hfit2, hHI⟩ := push_height_fits hhi 1 (Or.inl ⟨hb, rfl⟩)
    obtain ⟨hIA, hlen, hperm⟩ := push_core bp.data x 1 hA hfit1 hfit2
    refine ⟨⟨(beapInv_iff_invAll _).mpr hIA, ?_⟩, hlen, hperm⟩
    show HeightInvP 1 _
    rw [hlen]
    exact hHI
  · rw [push_eq_pos bp x hb]
    by_cases hgt : bp.data.length > blockEnd bp.height
    · rw [if_pos hgt]
      obtain ⟨hfit1, hfit2, hHI⟩ := push_height_fits hhi (bp.height + 1)
        (Or.inr (Or.inl ⟨by omega, hgt, rfl⟩))
      obtain ⟨hIA, hlen, hperm⟩ := push_core bp.data x (bp.height + 1) hA hfit1 hfit2
      refine ⟨⟨(beapInv_iff_invAll _).mpr hIA, ?_⟩, hlen, hperm⟩
      show HeightInvP (bp.height + 1) _
      rw [hlen]
      exact hHI
    · rw [if_neg hgt]
      obtain ⟨hfit1, hfit2, hHI⟩ := push_height_fits hhi bp.height
        (Or.inr (Or.inr ⟨by omega, by omega, rfl⟩))
      obtain ⟨hIA, hlen, hperm⟩ := push_core bp.data x bp.height hA hfit1 hfit2
      refine ⟨⟨(beapInv_iff_invAll _).mpr hIA, ?_⟩, hlen, hperm⟩
      show HeightInvP bp.height _
      rw [hlen]
      exact hHI

lemma pop_eq_small (bp : Beap α) (hne : bp.data ≠ [])
    (hd2 : bp.data.dropLast = []) :
    bp.pop = (some (getE bp.data (bp.data.length - 1)), ⟨[], 0⟩) := by
  unfold Beap.pop
  rw [if_neg hne]
  simp [hd2]

lemma pop_eq_big (bp : Beap α) (hne : bp.data ≠ [])
    (hd2 : bp.data.dropLast ≠ []) (hh : bp.height ≠ 0) :
    bp.pop = (some (getE bp.data.dropLast 0),
      ⟨siftdown
        (if blockStart bp.height = bp.data.dropLast.length then bp.height - 1
          else bp.height)
        (bp.data.dropLast.set 0 (getE bp.data (bp.data.length - 1))) 0 1,
        if blockStart bp.height = bp.data.dropLast.length then bp.height - 1
        else bp.height⟩) := by
  unfold Beap.pop span
  rw [if_neg hne]
  simp [hd2, hh]

lemma singleton_of_len_one (l : List α) (h1 : l.length = 1) :
    l = [getE l 0] := by
  have hne : l ≠ [] := by
    intro h
    rw [h] at h1
    simp at h1
  have := getE_last l hne
  rw [h1] at this
  have hd : l.dropLast = [] := by
    have := List.length_dropLast l
    rw [h1] at this
    simpa using List.length_eq_zero.mp (by omega)
  rw [hd] at this
  simpa using this.symm

lemma pop_spec (bp : Beap α) (h : bp.Valid) (hne : bp.data ≠ []) :
    (bp.pop).1 = some (getE bp.data 0) ∧ (bp.pop).2.Valid ∧
    List.Perm (getE bp.data 0 :: (bp.pop).2.data) bp.data ∧
    (bp.pop).2.data.length = bp.data.length - 1 := by
  obtain ⟨hinv, hhi⟩ := h
  have hA := (beapInv_iff_invAll _).mp hinv
  have hn0 : 0 < bp.data.length := List.length_pos.mpr hne
  by_cases hd2 : bp.data.dropLast = []
  · have h1 : bp.data.length = 1 := by
      have := List.length_dropLast bp.data
      rw [hd2] at this
      simp at this
      omega
    rw [pop_eq_small bp hne hd2]
    have he0 : bp.data.length - 1 = 0 := by omega
    rw [he0]
    refine ⟨rfl, ⟨BeapInv_nil, by simp [HeightInvP]⟩, ?_, by simp⟩
    show List.Perm [getE bp.data 0] bp.data
    rw [← singleton_of_len_one bp.data h1]
  · have hn2 : 2 ≤ bp.data.length := by
      have := List.length_dropLast bp.data
      rcases Nat.lt_or_ge bp.data.length 2 with hc | hc
      · exfalso
        have h1 : bp.data.length = 1 := by omega
        have : bp.data.dropLast.length = 0 := by omega
        exact hd2 (List.length_eq_zero.mp this)
      · exact hc
    have hh : bp.height ≠ 0 := by
      intro h0
      exact hne (List.length_eq_zero.mp (hhi.1.mp h0))
    rw [pop_eq_big bp hne hd2 hh]
    have hdl : bp.data.dropLast.length = bp.data.length - 1 :=
      List.length_dropLast _
    set h2 := (if blockStart bp.height = bp.data.dropLast.length
      then bp.height - 1 else bp.height) with hh2def
    have hHI2 : HeightInvP h2 (bp.data.length - 1) := by
      refine pop_height_fits hhi hn2 h2 ?_
      by_cases hc : blockStart bp.height = bp.data.dropLast.length
      · exact Or.inl ⟨by omega, by rw [hh2def, if_pos hc]⟩
      · exact Or.inr ⟨by omega, by rw [hh2def, if_neg hc]⟩
    have hroot : getE bp.data.dropLast 0 = getE bp.data 0 :=
      getE_dropLast _ _ (by omega)
    have hIA2 : InvAll (siftdown h2
        (bp.data.dropLast.set 0 (getE bp.data (bp.data.length - 1))) 0 1) := by
      refine rootRepl_ok _ _ _ (invAll_dropLast _ hA) (by omega) ?_
      rw [hdl]
      exact heightInv_len_le hHI2
    have hlen3 : (siftdown h2
        (bp.data.dropLast.set 0 (getE bp.data (bp.data.length - 1))) 0
        1).length = bp.data.length - 1 := by
      rw [siftdown_length, List.length_set, hdl]
    refine ⟨by rw [hroot], ⟨(beapInv_iff_invAll _).mpr hIA2, ?_⟩, ?_, hlen3⟩
    · show HeightInvP h2 _
      rw [hlen3]
      exact hHI2
    · show List.Perm (getE bp.data 0 :: siftdown h2
        (bp.data.dropLast.set 0 (getE bp.data (bp.data.length - 1))) 0 1)
        bp.data
      refine List.Perm.trans (List.Perm.cons _ (siftdown_perm _ _ _ _)) ?_
      rw [← hroot]
      refine List.Perm.trans (cons_set_perm _ 0 _ (by omega)) ?_
      refine List.Perm.trans (List.perm_append_singleton _ _).symm ?_
      rw [getE_last bp.data hne]

lemma removeIndex_eq_small (bp : Beap α) (pos : Nat)
    (hple : ¬ pos > bp.data.length) (hne : bp.data ≠ [])
    (hd2 : bp.data.dropLast = []) :
    bp.removeIndex pos = (some (getE bp.data (bp.data.length - 1)), ⟨[], 0⟩) := by
  unfold Beap.removeIndex
  rw [if_neg hple, if_neg hne]
  simp [hd2]

lemma removeIndex_eq_big (bp : Beap α) (pos : Nat)
    (hple : ¬ pos > bp.data.length) (hne : bp.data ≠ [])
    (hd2 : bp.data.dropLast ≠ []) (hh : bp.height ≠ 0) :
    bp.removeIndex pos =
      if pos ≠ bp.data.dropLast.length then
        (some (getE bp.data.dropLast pos),
          ⟨repair
            (if blockStart bp.height = bp.data.dropLast.length
              then bp.height - 1 else bp.height)
            (bp.data.dropLast.set pos (getE bp.data (bp.data.length - 1))) pos,
            if blockStart bp.height = bp.data.dropLast.length
            then bp.height - 1 else bp.height⟩)
      else
        (some (getE bp.data (bp.data.length - 1)),
          ⟨bp.data.dropLast,
            if blockStart bp.height = bp.data.dropLast.length
            then bp.height - 1 else bp.height⟩) := by
  unfold Beap.removeIndex span
  rw [if_neg hple, if_neg hne]
  simp only [hd2, if_neg hh]
  simp [hd2]

lemma removeIndex_spec (bp : Beap α) (pos : Nat) (h : bp.Valid)
    (hpos : pos < bp.data.length) :
    (bp.removeIndex pos).1 = some (getE bp.data pos) ∧
    (bp.removeIndex pos).2.Valid ∧
    List.Perm (getE bp.data pos :: (bp.removeIndex pos).2.data) bp.data ∧
    (bp.removeIndex pos).2.data.length = bp.data.length - 1 := by
  obtain ⟨hinv, hhi⟩ := h
  have hA := (beapInv_iff_invAll _).mp hinv
  have hne : bp.data ≠ [] := by
    intro h0
    rw [h0] at hpos
    simp at hpos
  have hple : ¬ pos > bp.data.length := by omega
  by_cases hd2 : bp.data.dropLast = []
  · have h1 : bp.data.length = 1 := by
      have := List.length_dropLast bp.data
      rw [hd2] at this
      simp at this
      omega
    have hp0 : pos = 0 := by omega
    rw [removeIndex_eq_small bp pos hple hne hd2]
    have he0 : bp.data.length - 1 = 0 := by omega
    rw [he0, hp0]
    refine ⟨rfl, ⟨BeapInv_nil, by simp [HeightInvP]⟩, ?_, by simp⟩
    show List.Perm [getE bp.data 0] bp.data
    rw [← singleton_of_len_one bp.data h1]
  · have hn2 : 2 ≤ bp.data.length := by
      have := List.length_dropLast bp.data
      rcases Nat.lt_or_ge bp.data.length 2 with hc | hc
      · exfalso
        have : bp.data.dropLast.length = 0 := by omega
        exact hd2 (List.length_eq_zero.mp this)
      · exact hc
    have hh : bp.height ≠ 0 := by
      intro h0
      exact hne (List.length_eq_zero.mp (hhi.1.mp h0))
    rw [removeIndex_eq_big bp pos hple hne hd2 hh]
    have hdl : bp.data.dropLast.length = bp.data.length - 1 :=
      List.length_dropLast _
    set h2 := (if blockStart bp.height = bp.data.dropLast.length
      then bp.height - 1 else bp.height) with hh2def
    have hHI2 : HeightInvP h2 (bp.data.length - 1) := by
      refine pop_height_fits hhi hn2 h2 ?_
      by_cases hc : blockStart bp.height = bp.data.dropLast.length
      · exact Or.inl ⟨by omega, by rw [hh2def, if_pos hc]⟩
      · exact Or.inr ⟨by omega, by rw [hh2def, if_neg hc]⟩
    by_cases hpend : pos ≠ bp.data.dropLast.length
    · rw [if_pos hpend]
      have hpos2 : pos < bp.data.dropLast.length := by omega
      have hval : getE bp.data.dropLast pos = getE bp.data pos :=
        getE_dropLast _ _ (by omega)
      have hIA2 : InvAll (repair h2
          (bp.data.dropLast.set pos (getE bp.data (bp.data.length - 1)))
          pos) := by
        refine setRepair_ok h2 _ _ pos (invAll_dropLast _ hA) hpos2 ?_
        rw [hdl]
        exact heightInv_len_le hHI2
      have hlen3 : (repair h2
          (bp.data.dropLast.set pos (getE bp.data (bp.data.length - 1)))
          pos).length = bp.data.length - 1 := by
        rw [repair_length, List.length_set, hdl]
      refine ⟨by rw [hval], ⟨(beapInv_iff_invAll _).mpr hIA2, ?_⟩, ?_, hlen3⟩
      · show HeightInvP h2 _
        rw [hlen3]
        exact hHI2
      · show List.Perm (getE bp.data pos :: repair h2
          (bp.data.dropLast.set pos (getE bp.data (bp.data.length - 1))) pos)
          bp.data
        refine List.Perm.trans (List.Perm.cons _ (repair_perm _ _ _)) ?_
        rw [← hval]
        refine List.Perm.trans (cons_set_perm _ pos _ hpos2) ?_
        refine List.Perm.trans (List.perm_append_singleton _ _).symm ?_
        rw [getE_last bp.data hne]
    · rw [if_neg hpend]
      have hpe : pos = bp.data.length - 1 := by omega
      refine ⟨by rw [hpe],
        ⟨(beapInv_iff_invAll _).mpr (invAll_dropLast _ hA), ?_⟩, ?_, hdl⟩
      · show HeightInvP h2 _
        rw [hdl]
        exact hHI2
      · show List.Perm (getE bp.data pos :: bp.data.dropLast) bp.data
        rw [hpe]
        refine List.Perm.trans (List.perm_append_singleton _ _).symm ?_
        rw [getE_last bp.data hne]

/-! ## Correctness of the positional search -/

lemma blockEnd_eq_flat (b : Nat) (hb : 1 ≤ b) : blockEnd b = flatIdx b (b - 1) := by
  have h1 := blockEnd_succ_eq b hb
  have h2 := blockStart_succ b
  unfold flatIdx
  omega

lemma col_chain (d : List α) (hA : InvAll d) :
    ∀ k b p, 0 < b → p < b → flatIdx (b + k) p < d.length →
    getE d (flatIdx (b + k) p) ≤ getE d (flatIdx b p) := by
  intro k
  induction k with
  | zero => intro b p _ _ _; exact le_refl _
  | succ k ih =>
    intro b p hb hp hn
    have hee : b + (k + 1) = b + k + 1 := rfl
    rw [hee] at hn ⊢
    have hpar : parOf (b + k + 1) p (b + k) p :=
      ⟨by omega, by omega, rfl, Or.inr ⟨rfl, by omega⟩⟩
    have hlt := parOf_flat_lt hpar
    have hstep := hA (b + k + 1) p (b + k) p hpar hn
    exact le_trans hstep (ih b p hb hp (by omega))

lemma row_chain (d : List α) (hA : InvAll d) :
    ∀ k b p, p < b → k ≤ p → flatIdx b p < d.length →
    getE d (flatIdx b p) ≤ getE d (flatIdx (b - k) (p - k)) := by
  intro k
  induction k with
  | zero => intro b p _ _ _; exact le_refl _
  | succ k ih =>
    intro b p hp hk hn
    have hpar : parOf b p (b - 1) (p - 1) :=
      ⟨by omega, hp, by omega, Or.inl (by omega)⟩
    have hlt := parOf_flat_lt hpar
    have hstep := hA b p (b - 1) (p - 1) hpar hn
    refine le_trans hstep ?_
    have := ih (b - 1) (p - 1) (by omega) (by omega) (by omega)
    have he1 : b - 1 - k = b - (k + 1) := by omega
    have he2 : p - 1 - k = p - (k + 1) := by omega
    rw [he1, he2] at this
    exact this

lemma col_excl (d : List α) (hA : InvAll d) (block q b2 : Nat)
    (hq : q < block) (hb2 : block ≤ b2) (hn : flatIdx b2 q < d.length) :
    getE d (flatIdx b2 q) ≤ getE d (flatIdx block q) := by
  have he : b2 = block + (b2 - block) := by omega
  rw [he] at hn ⊢
  exact col_chain d hA (b2 - block) block q (by omega) hq hn

lemma row_excl (d : List α) (hA : InvAll d) (block q b2 p2 : Nat)
    (hq : q < block) (hp2 : p2 < b2) (hrow : b2 - p2 = block - q)
    (hp2q : p2 ≤ q) (hn : flatIdx block q < d.length) :
    getE d (flatIdx block q) ≤ getE d (flatIdx b2 p2) := by
  have h := row_chain d hA (q - p2) block q hq (by omega) hn
  have he1 : block - (q - p2) = b2 := by omega
  have he2 : q - (q - p2) = p2 := by omega
  rw [he1, he2] at h
  exact h

lemma cell_block_le {height n b2 p2 : Nat} (hlen : n ≤ blockStart (height + 1))
    (hi : flatIdx b2 p2 < n) : b2 ≤ height := by
  by_contra hc
  have h1 : blockStart (height + 1) ≤ blockStart b2 := blockStart_mono (by omega)
  have h2 : blockStart b2 ≤ flatIdx b2 p2 := Nat.le_add_right _ _
  omega

lemma indexGo_walk (d : List α) (height : Nat) (val : α) (hA : InvAll d)
    (hhv : HeightInvP height d.length) (hne : 0 < d.length) :
    ∀ fuel block q, 1 ≤ block → block ≤ height → q < block →
    flatIdx block q < d.length →
    height - block + 2 * q + 1 ≤ fuel →
    (∀ i, i < d.length → getE d i = val → Reg block q i) →
    (∀ j, indexGo d height val (blockStart height) fuel (flatIdx block q) block
        = some j → j < d.length ∧ getE d j = val) ∧
    (indexGo d height val (blockStart height) fuel (flatIdx block q) block
        = none → ∀ i, i < d.length → getE d i ≠ val) := by
  intro fuel
  induction fuel with
  | zero =>
    intro block q _ _ _ _ hfuel _
    omega
  | succ fuel ih =>
    intro block q hb1 hbh hq hn hfuel hprom
    have hlow : blockStart height ≤ d.length - 1 := (hhv.2 hne).1
    have hlen : d.length ≤ blockStart (height + 1) := heightInv_len_le hhv
    rw [indexGo]
    by_cases hLL : flatIdx block q = blockStart height
    · rw [if_pos hLL]
      have hcells : block = height ∧ q = 0 := by
        have hflat : flatIdx block q = flatIdx height 0 := by
          rw [hLL]
          simp [flatIdx]
        exact flatIdx_inj (by omega) hq (by omega) (by omega) hflat
      by_cases hv : getE d (blockStart height) = val
      · rw [if_pos hv]
        refine ⟨?_, by simp⟩
        intro j hj
        have hje : blockStart height = j := by
          simpa using hj
        rw [← hje]
        exact ⟨by omega, hv⟩
      · rw [if_neg hv]
        refine ⟨by simp, ?_⟩
        intro _ i hi hvi
        obtain ⟨hbE, hqE⟩ := hcells
        obtain ⟨b2, p2, hb2, hp2, hieq, hple, hble⟩ := hprom i hi hvi
        have hp20 : p2 = 0 := by omega
        have hb2h : b2 ≤ height := cell_block_le hlen (by rw [← hieq]; exact hi)
        have hb2e : b2 = height := by omega
        rw [hieq, hb2e, hp20] at hvi
        have hf0 : flatIdx height 0 = blockStart height := by simp [flatIdx]
        rw [hf0] at hvi
        exact hv hvi
    · rw [if_neg hLL]
      by_cases hv : getE d (flatIdx block q) = val
      · rw [if_pos hv]
        refine ⟨?_, by simp⟩
        intro j hj
        have hje : flatIdx block q = j := by simpa using hj
        rw [← hje]
        exact ⟨hn, hv⟩
      · rw [if_neg hv]
        dsimp only
        rw [flat_sub_blockStart]
        by_cases hc1 : 1 < block ∧ 0 < q ∧ getE d (flatIdx block q) < val
        · rw [if_pos hc1]
          obtain ⟨hbl2, hq0, hlt⟩ := hc1
          have hnew : (block - 1) * (block - 2) / 2 + q - 1 =
              flatIdx (block - 1) (q - 1) := by
            rw [prevStart_eq block]
            unfold flatIdx
            omega
          rw [hnew]
          have hsmaller : flatIdx (block - 1) (q - 1) < flatIdx block q := by
            have h1 := flatIdx_lt_next (show q - 1 < block - 1 by omega)
            have h2 : blockStart (block - 1 + 1) ≤ blockStart block :=
              blockStart_mono (by omega)
            have h3 : blockStart block ≤ flatIdx block q := Nat.le_add_right _ _
            omega
          refine ih (block - 1) (q - 1) (by omega) (by omega) (by omega)
            (by omega) (by omega) ?_
          intro i hi hvi
          obtain ⟨b2, p2, hb2, hp2, hieq, hple, hble⟩ := hprom i hi hvi
          by_cases hcol : p2 = q
          · exfalso
            have hb2ge : block ≤ b2 := by omega
            have hieq2 : i = flatIdx b2 q := by rw [hieq, hcol]
            have hle2 : getE d (flatIdx b2 q) ≤ getE d (flatIdx block q) :=
              col_excl d hA block q b2 hq hb2ge
                (by rw [← hieq2]; exact hi)
            rw [← hieq2, hvi] at hle2
            exact absurd (lt_of_le_of_lt hle2 hlt) (lt_irrefl val)
          · exact ⟨b2, p2, hb2, hp2, hieq, by omega, by omega⟩
        · rw [if_neg hc1]
          by_cases hc2 : val < getE d (flatIdx block q) ∧ block < height
          · rw [if_pos hc2]
            obtain ⟨hlt, hblh⟩ := hc2
            have hconv : (block + 1) * block / 2 + q = flatIdx (block + 1) q := rfl
            rw [hconv]
            by_cases hoor : flatIdx (block + 1) q ≥ d.length
            · rw [if_pos hoor]
              have hq1 : 1 ≤ q := by
                by_contra hc
                have hq0 : q = 0 := by omega
                rw [hq0] at hoor
                have h1 : blockStart (block + 1) ≤ blockStart height :=
                  blockStart_mono (by omega)
                have h2 : flatIdx (block + 1) 0 = blockStart (block + 1) := by
                  simp [flatIdx]
                omega
              have hnew : flatIdx block q - 1 = flatIdx block (q - 1) := by
                unfold flatIdx
                omega
              rw [hnew]
              refine ih block (q - 1) (by omega) hbh (by omega)
                (by have : flatIdx block (q - 1) < flatIdx block q := by
                      unfold flatIdx; omega
                    omega)
                (by omega) ?_
              intro i hi hvi
              obtain ⟨b2, p2, hb2, hp2, hieq, hple, hble⟩ := hprom i hi hvi
              by_cases hrow : b2 - p2 = block - q
              · exfalso
                have hle2 : getE d (flatIdx block q) ≤ getE d (flatIdx b2 p2) :=
                  row_excl d hA block q b2 p2 hq hp2 hrow hple hn
                rw [← hieq, hvi] at hle2
                exact absurd (lt_of_lt_of_le hlt hle2) (lt_irrefl val)
              · by_cases hcol : p2 = q
                · exfalso
                  have hb2ge : block + 1 ≤ b2 := by omega
                  have h1 : blockStart (block + 1) ≤ blockStart b2 :=
                    blockStart_mono hb2ge
                  have h2 : flatIdx (block + 1) q ≤ flatIdx b2 p2 := by
                    unfold flatIdx
                    omega
                  omega
                · exact ⟨b2, p2, hb2, hp2, hieq, by omega, by omega⟩
            · rw [if_neg hoor]
              push_neg at hoor
              refine ih (block + 1) q (by omega) (by omega) (by omega) hoor
                (by omega) ?_
              intro i hi hvi
              obtain ⟨b2, p2, hb2, hp2, hieq, hple, hble⟩ := hprom i hi hvi
              by_cases hrow : b2 - p2 = block - q
              · exfalso
                have hle2 : getE d (flatIdx block q) ≤ getE d (flatIdx b2 p2) :=
                  row_excl d hA block q b2 p2 hq hp2 hrow hple hn
                rw [← hieq, hvi] at hle2
                exact absurd (lt_of_lt_of_le hlt hle2) (lt_irrefl val)
              · exact ⟨b2, p2, hb2, hp2, hieq, hple, by omega⟩
          · rw [if_neg hc2]
            have hvne : getE d (flatIdx block q) ≠ val := hv
            by_cases hq0 : 0 < q
            · rw [if_pos hq0]
              have hlt : val < getE d (flatIdx block q) := by
                rcases lt_or_gt_of_ne (Ne.symm hvne) with h | h
                · exact h
                · exfalso
                  exact hc1 ⟨by omega, hq0, h⟩
              have hbe : block = height := by
                by_contra hc
                exact hc2 ⟨hlt, by omega⟩
              have hnew : flatIdx block q - 1 = flatIdx block (q - 1) := by
                unfold flatIdx
                omega
              rw [hnew]
              refine ih block (q - 1) (by omega) hbh (by omega)
                (by have : flatIdx block (q - 1) < flatIdx block q := by
                      unfold flatIdx; omega
                    omega)
                (by omega) ?_
              intro i hi hvi
              obtain ⟨b2, p2, hb2, hp2, hieq, hple, hble⟩ := hprom i hi hvi
              by_cases hrow : b2 - p2 = block - q
              · exfalso
                have hle2 : getE d (flatIdx block q) ≤ getE d (flatIdx b2 p2) :=
                  row_excl d hA block q b2 p2 hq hp2 hrow hple hn
                rw [← hieq, hvi] at hle2
                exact absurd (lt_of_lt_of_le hlt hle2) (lt_irrefl val)
              · by_cases hcol : p2 = q
                · exfalso
                  have hb2h : b2 ≤ height := cell_block_le hlen
                    (by rw [← hieq]; exact hi)
                  have hb2e : b2 = block := by omega
                  rw [hieq, hb2e, hcol] at hvi
                  exact hvne hvi
                · exact ⟨b2, p2, hb2, hp2, hieq, by omega, by omega⟩
            · rw [if_neg hq0]
              refine ⟨by simp, ?_⟩
              intro _ i hi hvi
              have hq0e : q = 0 := by omega
              have hlt : getE d (flatIdx block q) < val := by
                rcases lt_or_gt_of_ne (Ne.symm hvne) with h | h
                · exfalso
                  have hbe : block = height := by
                    by_contra hc
                    exact hc2 ⟨h, by omega⟩
                  rw [hbe, hq0e] at hLL
                  exact hLL (by simp [flatIdx])
                · exact h
              obtain ⟨b2, p2, hb2, hp2, hieq, hple, hble⟩ := hprom i hi hvi
              have hp20 : p2 = 0 := by omega
              have hb2ge : block ≤ b2 := by omega
              have hieq2 : i = flatIdx b2 q := by rw [hieq, hp20, hq0e]
              have hle2 : getE d (flatIdx b2 q) ≤ getE d (flatIdx block q) := by
                refine col_excl d hA block q b2 hq hb2ge ?_
                rw [← hieq2]
                exact hi
              rw [← hieq2, hvi] at hle2
              exact absurd (lt_of_le_of_lt hle2 hlt) (lt_irrefl val)

lemma index_spec (bp : Beap α) (val : α) (hV : bp.Valid) :
    (∀ j, bp.index val = some j → j < bp.data.length ∧ getE bp.data j = val) ∧
    (bp.index val = none → ∀ i, i < bp.data.length → getE bp.data i ≠ val) := by
  obtain ⟨hI, hH⟩ := hV
  have hA : InvAll bp.data := (beapInv_iff_invAll bp.data).1 hI
  rcases Nat.eq_zero_or_pos bp.data.length with h0 | h0
  · have hh0 : bp.height = 0 := hH.1.mpr h0
    unfold Beap.index
    rw [hh0]
    have hsp : span (0 : Nat) = (none : Option (Nat × Nat)) := rfl
    rw [hsp]
    refine ⟨by simp, ?_⟩
    intro _ i hi
    omega
  · have hhpos : 0 < bp.height := by
      rcases Nat.eq_zero_or_pos bp.height with hz | hp
      · exact absurd (hH.1.mp hz) (by omega)
      · exact hp
    obtain ⟨hlow, hup⟩ := hH.2 h0
    have hlen := heightInv_len_le hH
    have hBE : blockEnd bp.height = flatIdx bp.height (bp.height - 1) :=
      blockEnd_eq_flat bp.height hhpos
    have hBEval : blockEnd bp.height = blockStart bp.height + (bp.height - 1) := by
      rw [hBE]; rfl
    have hsp : span bp.height = some (blockStart bp.height, blockEnd bp.height) := by
      unfold span
      rw [if_neg (by omega)]
    unfold Beap.index
    rw [hsp]
    dsimp only
    by_cases hge : blockEnd bp.height ≥ bp.data.length
    · rw [if_pos hge]
      have h2le : 2 ≤ bp.height := by
        by_contra hc
        have hone : bp.height = 1 := by omega
        rw [hone] at hge
        have hbe1 : blockEnd 1 = 0 := rfl
        omega
      have hBE1 : blockEnd (bp.height - 1) = flatIdx (bp.height - 1) (bp.height - 2) := by
        rw [blockEnd_eq_flat (bp.height - 1) (by omega)]
        have hss : bp.height - 1 - 1 = bp.height - 2 := by omega
        rw [hss]
      have hbs : blockStart (bp.height - 1) + (bp.height - 1) = blockStart bp.height := by
        have h1 := blockStart_succ (bp.height - 1)
        rw [show bp.height - 1 + 1 = bp.height by omega] at h1
        omega
      have hfe : flatIdx (bp.height - 1) (bp.height - 2) =
          blockStart (bp.height - 1) + (bp.height - 2) := rfl
      have hbs2 : (1 : Nat) ≤ blockStart bp.height := by
        have h1 : blockStart 2 ≤ blockStart bp.height := blockStart_mono h2le
        have h2 : blockStart 2 = 1 := rfl
        omega
      rw [hBE1]
      refine indexGo_walk bp.data bp.height val hA hH h0 (2 * bp.height + 2)
        (bp.height - 1) (bp.height - 2) (by omega) (by omega) (by omega)
        (by omega) (by omega) ?_
      intro i hi hvi
      obtain ⟨b2, p2, hb2, hp2, hieq⟩ := cell_exists i
      have hb2h : b2 ≤ bp.height := cell_block_le hlen (by rw [← hieq]; exact hi)
      refine ⟨b2, p2, hb2, hp2, hieq, ?_, by omega⟩
      by_cases hbt : b2 = bp.height
      · have hfe2 : flatIdx b2 p2 = blockStart b2 + p2 := rfl
        rw [hbt] at hfe2 hieq
        omega
      · omega
    · rw [if_neg hge]
      push_neg at hge
      rw [hBE]
      refine indexGo_walk bp.data bp.height val hA hH h0 (2 * bp.height + 2)
        bp.height (bp.height - 1) (by omega) (by omega) (by omega)
        (by omega) (by omega) ?_
      intro i hi hvi
      obtain ⟨b2, p2, hb2, hp2, hieq⟩ := cell_exists i
      have hb2h : b2 ≤ bp.height := cell_block_le hlen (by rw [← hieq]; exact hi)
      exact ⟨b2, p2, hb2, hp2, hieq, by omega, by omega⟩

/-! ## Membership, `contains`, `remove`, `replace` -/

lemma mem_iff_getE (d : List α) (v : α) :
    v ∈ d ↔ ∃ i, i < d.length ∧ getE d i = v := by
  rw [List.mem_iff_getElem]
  constructor
  · rintro ⟨i, hi, he⟩
    exact ⟨i, hi, by rw [getE_eq_getElem d i hi]; exact he⟩
  · rintro ⟨i, hi, he⟩
    exact ⟨i, hi, by rw [← getE_eq_getElem d i hi]; exact he⟩

lemma contains_iff (bp : Beap α) (v : α) (hV : bp.Valid) :
    bp.contains v = true ↔ v ∈ bp.data := by
  obtain ⟨hsome, hnone⟩ := index_spec bp v hV
  unfold Beap.contains
  rcases hidx : bp.index v with _ | j
  · simp only [Option.isSome_none]
    constructor
    · intro hc
      exact absurd hc (by simp)
    · intro hm
      obtain ⟨i, hi, he⟩ := (mem_iff_getE bp.data v).1 hm
      exact absurd he (hnone hidx i hi)
  · simp only [Option.isSome_some]
    refine ⟨fun _ => ?_, fun _ => trivial⟩
    obtain ⟨hj, he⟩ := hsome j hidx
    exact (mem_iff_getE bp.data v).2 ⟨j, hj, he⟩

lemma remove_spec (bp : Beap α) (v : α) (hV : bp.Valid) :
    ((bp.remove v).1 = true ↔ v ∈ bp.data) ∧
    ((bp.remove v).1 = true →
      List.Perm (v :: (bp.remove v).2.data) bp.data ∧ (bp.remove v).2.Valid) ∧
    ((bp.remove v).1 = false → (bp.remove v).2 = bp) := by
  obtain ⟨hsome, hnone⟩ := index_spec bp v hV
  unfold Beap.remove
  rcases hidx : bp.index v with _ | j
  · dsimp only
    refine ⟨?_, ?_, fun _ => rfl⟩
    · constructor
      · intro hc
        exact absurd hc (by simp)
      · intro hm
        obtain ⟨i, hi, he⟩ := (mem_iff_getE bp.data v).1 hm
        exact absurd he (hnone hidx i hi)
    · intro hc
      exact absurd hc (by simp)
  · dsimp only
    obtain ⟨hj, he⟩ := hsome j hidx
    refine ⟨?_, ?_, ?_⟩
    · exact ⟨fun _ => (mem_iff_getE bp.data v).2 ⟨j, hj, he⟩, fun _ => rfl⟩
    · intro _
      obtain ⟨_, hval, hperm, _⟩ := removeIndex_spec bp j hV hj
      rw [← he]
      exact ⟨hperm, hval⟩
    · intro hc
      exact absurd hc (by simp)

lemma replace_valid (bp : Beap α) (o n : α) (hV : bp.Valid) :
    (bp.replace o n).2.Valid ∧
    ((bp.replace o n).1 = true →
      List.Perm (o :: (bp.replace o n).2.data) (n :: bp.data)) ∧
    ((bp.replace o n).1 = false → (bp.replace o n).2 = bp) := by
  obtain ⟨hsome, _⟩ := index_spec bp o hV
  obtain ⟨hinv, hhi⟩ := hV
  have hA := (beapInv_iff_invAll _).mp hinv
  unfold Beap.replace
  rcases hidx : bp.index o with _ | pos
  · exact ⟨⟨hinv, hhi⟩, fun hc => absurd hc (by simp), fun _ => rfl⟩
  · dsimp only
    obtain ⟨hp, he⟩ := hsome pos hidx
    have hlen := heightInv_len_le hhi
    refine ⟨⟨?_, ?_⟩, ?_, ?_⟩
    · exact (beapInv_iff_invAll _).mpr
        (setRepair_ok bp.height bp.data n pos hA hp hlen)
    · show HeightInvP bp.height (repair bp.height (bp.data.set pos n) pos).length
      rw [repair_length, List.length_set]
      exact hhi
    · intro _
      show List.Perm (o :: (repair bp.height (bp.data.set pos n) pos)) (n :: bp.data)
      have h1 : List.Perm (repair bp.height (bp.data.set pos n) pos)
          (bp.data.set pos n) := repair_perm _ _ _
      refine ((h1.cons o).trans ?_)
      rw [← he]
      exact cons_set_perm bp.data pos n hp
    · intro hc
      exact absurd hc (by simp)

/-! ## Validity of the construction paths -/

lemma sqrt_eval (n m : Nat) (h1 : m * m ≤ n) (h2 : n < (m + 1) * (m + 1)) :
    Nat.sqrt n = m := by
  have ha : m ≤ Nat.sqrt n := Nat.le_sqrt.mpr h1
  have hb : Nat.sqrt n < m + 1 := Nat.sqrt_lt.mpr h2
  omega

lemma sortDesc_perm (l : List α) : List.Perm (sortDesc l) l :=
  List.perm_insertionSort _ l

lemma sortDesc_length (l : List α) : (sortDesc l).length = l.length :=
  (sortDesc_perm l).length_eq

lemma sortDesc_sorted (l : List α) :
    List.Sorted (fun a b => b ≤ a) (sortDesc l) := by
  haveI h1 : IsTotal α (fun a b => b ≤ a) := ⟨fun a b => le_total b a⟩
  haveI h2 : IsTrans α (fun a b => b ≤ a) := ⟨fun a b c hab hbc => le_trans hbc hab⟩
  exact List.sorted_insertionSort _ l

lemma sorted_desc_invAll (d : List α) (hs : List.Sorted (fun a b => b ≤ a) d) :
    InvAll d := by
  intro b p b2 p2 hpar hn
  have hlt := parOf_flat_lt hpar
  have h2 : flatIdx b2 p2 < d.length := by omega
  rw [getE_eq_getElem _ _ hn, getE_eq_getElem _ _ h2]
  have h3 : (⟨flatIdx b2 p2, h2⟩ : Fin d.length) < ⟨flatIdx b p, hn⟩ :=
    Fin.mk_lt_mk.mpr hlt
  have h4 := hs.rel_get_of_lt h3
  simpa using h4

lemma empty_valid : (Beap.empty α).Valid := by
  refine ⟨BeapInv_nil, ?_⟩
  constructor
  · simp [Beap.empty]
  · intro h
    simp [Beap.empty] at h

lemma fromList_valid (l : List α) : (beapFromList l).Valid := by
  refine ⟨(beapInv_iff_invAll _).mpr (sorted_desc_invAll _ (sortDesc_sorted l)), ?_⟩
  show HeightInvP ((Nat.sqrt (8 * l.length) + 1) / 2) (sortDesc l).length
  rw [sortDesc_length]
  rcases Nat.eq_zero_or_pos l.length with h0 | h0
  · rw [h0]
    have hz : (Nat.sqrt (8 * 0) + 1) / 2 = 0 := by
      rw [show 8 * 0 = 0 from rfl, sqrt_eval 0 0 (by omega) (by omega)]
    rw [hz]
    exact ⟨by omega, by omega⟩
  · have h8 : 8 * l.length = 8 * ((l.length - 1) + 1) := by omega
    rw [h8]
    show HeightInvP (repairBlock (l.length - 1)) l.length
    rcases Nat.lt_or_ge (l.length - 1) 1 with h1 | h1
    · have hn1 : l.length = 1 := by omega
      rw [hn1]
      show HeightInvP (repairBlock 0) 1
      have he1 : repairBlock 0 = 1 := by
        show (Nat.sqrt (8 * (0 + 1)) + 1) / 2 = 1
        rw [show 8 * (0 + 1) = 8 from rfl, sqrt_eval 8 2 (by omega) (by omega)]
      rw [he1]
      refine ⟨by omega, fun _ => ?_⟩
      have hb1 : blockStart 1 = 0 := rfl
      omega
    · obtain ⟨b, p, hb, hp, he⟩ := cell_exists (l.length - 1)
      rw [he, repairBlock_eq hb hp (by omega)]
      have hf : flatIdx b p = blockStart b + p := rfl
      refine ⟨by omega, fun _ => by omega⟩

lemma pop_valid_total (bp : Beap α) (hV : bp.Valid) : bp.pop.2.Valid := by
  by_cases hne : bp.data = []
  · unfold Beap.pop
    rw [if_pos hne]
    exact hV
  · exact (pop_spec bp hV hne).2.1

lemma remove_valid_total (bp : Beap α) (v : α) (hV : bp.Valid) :
    (bp.remove v).2.Valid := by
  obtain ⟨_, htrue, hfalse⟩ := remove_spec bp v hV
  rcases hb : (bp.remove v).1 with _ | _
  · rw [hfalse hb]
    exact hV
  · exact (htrue hb).2

lemma applyOp_valid (bp : Beap α) (op : BOp α) (hV : bp.Valid) :
    (applyOp bp op).Valid := by
  cases op with
  | push x => exact (push_valid bp x hV).1
  | pop => exact pop_valid_total bp hV
  | replace o n => exact (replace_valid bp o n hV).1
  | remove v => exact remove_valid_total bp v hV

lemma applyOps_valid (bp : Beap α) (ops : List (BOp α)) (hV : bp.Valid) :
    (applyOps bp ops).Valid := by
  induction ops generalizing bp with
  | nil => exact hV
  | cons op rest ih =>
    show (applyOps (applyOp bp op) rest).Valid
    exact ih (applyOp bp op) (applyOp_valid bp op hV)

/-! ## Pop-to-exhaustion produces a descending sort -/

lemma popAllGo_spec : ∀ (fuel : Nat) (bp : Beap α), bp.Valid →
    bp.data.length ≤ fuel →
    List.Perm (popAllGo fuel bp) bp.data ∧
    List.Sorted (fun a b => b ≤ a) (popAllGo fuel bp) := by
  intro fuel
  induction fuel with
  | zero =>
    intro bp _ hlen
    have hnil : bp.data = [] := List.length_eq_zero.mp (by omega)
    rw [show popAllGo 0 bp = ([] : List α) from rfl, hnil]
    exact ⟨List.Perm.refl _, List.sorted_nil⟩
  | succ fuel ih =>
    intro bp hV hlen
    by_cases hne : bp.data = []
    · have hpop : bp.pop = (none, bp) := by
        unfold Beap.pop
        rw [if_pos hne]
      rw [popAllGo, hpop]
      rw [hne]
      exact ⟨List.Perm.refl _, List.sorted_nil⟩
    · obtain ⟨hv1, hv2, hperm, hlen2⟩ := pop_spec bp hV hne
      rcases hp : bp.pop with ⟨o, bp2⟩
      rw [hp] at hv1 hv2 hperm hlen2
      dsimp only at hv1 hv2 hperm hlen2
      rw [popAllGo, hp, hv1]
      have hn0 : 0 < bp.data.length := List.length_pos.mpr hne
      obtain ⟨ihp, ihs⟩ := ih bp2 hv2 (by omega)
      have hA := (beapInv_iff_invAll _).mp hV.1
      refine ⟨(ihp.cons _).trans hperm, List.sorted_cons.mpr ⟨?_, ihs⟩⟩
      intro x hx
      have hx2 : x ∈ bp.data := hperm.mem_iff.mp (List.mem_cons_of_mem _ (ihp.mem_iff.mp hx))
      obtain ⟨i, hi, he⟩ := (mem_iff_getE bp.data x).1 hx2
      rw [← he]
      exact root_is_max bp.data hA i hi

lemma popAll_spec (bp : Beap α) (hV : bp.Valid) :
    List.Perm bp.popAll bp.data ∧ List.Sorted (fun a b => b ≤ a) bp.popAll :=
  popAllGo_spec bp.data.length bp hV (Nat.le_refl _)

/-! ## Correctness of the tail (minimum) scan -/

lemma minFold_spec (d : List α) : ∀ (k a c : Nat),
    (((List.range' a k).foldl (minFoldF d) c = c) ∨
      (a ≤ (List.range' a k).foldl (minFoldF d) c ∧
        (List.range' a k).foldl (minFoldF d) c < a + k)) ∧
    getE d ((List.range' a k).foldl (minFoldF d) c) ≤ getE d c ∧
    (∀ i, a ≤ i → i < a + k →
      getE d ((List.range' a k).foldl (minFoldF d) c) ≤ getE d i) := by
  intro k
  induction k with
  | zero =>
    intro a c
    rw [show List.range' a 0 = ([] : List Nat) from rfl]
    exact ⟨Or.inl rfl, le_refl _, fun i h1 h2 => by omega⟩
  | succ k ihk =>
    intro a c
    rw [List.range'_succ, List.foldl_cons]
    obtain ⟨ih1, ih2, ih3⟩ := ihk (a + 1) (minFoldF d c a)
    have hc2 : (minFoldF d c a = a ∨ minFoldF d c a = c) ∧
        getE d (minFoldF d c a) ≤ getE d c ∧
        getE d (minFoldF d c a) ≤ getE d a := by
      unfold minFoldF
      by_cases hcc : getE d a < getE d c
      · rw [if_pos hcc]
        exact ⟨Or.inl rfl, le_of_lt hcc, le_refl _⟩
      · rw [if_neg hcc]
        exact ⟨Or.inr rfl, le_refl _, le_of_not_lt hcc⟩
    refine ⟨?_, le_trans ih2 hc2.2.1, ?_⟩
    · rcases ih1 with h | h
      · rw [h]
        rcases hc2.1 with h2 | h2
        · exact Or.inr (by omega)
        · exact Or.inl h2
      · exact Or.inr (by omega)
    · intro i hi1 hi2
      rcases Nat.eq_or_lt_of_le hi1 with he | he
      · rw [← he]
        exact le_trans ih2 hc2.2.2
      · exact ih3 i (by omega) (by omega)

lemma minKeyIdx_spec (d : List α) (lo hi : Nat) (hlohi : lo ≤ hi) :
    lo ≤ minKeyIdx d lo hi ∧ minKeyIdx d lo hi ≤ hi ∧
    ∀ i, lo ≤ i → i ≤ hi → getE d (minKeyIdx d lo hi) ≤ getE d i := by
  have h := minFold_spec d (hi - lo) (lo + 1) lo
  have he : minKeyIdx d lo hi = (List.range' (lo + 1) (hi - lo)).foldl (minFoldF d) lo := rfl
  rw [← he] at h
  obtain ⟨h1, h2, h3⟩ := h
  refine ⟨?_, ?_, ?_⟩
  · rcases h1 with h1 | h1 <;> omega
  · rcases h1 with h1 | h1 <;> omega
  · intro i hi1 hi2
    rcases Nat.eq_or_lt_of_le hi1 with he2 | he2
    · rw [← he2]
      exact h2
    · exact h3 i (by omega) (by omega)

lemma tail_min_aux (d : List α) (h : Nat) (hA : InvAll d)
    (hH : HeightInvP h d.length) (h1 : 1 ≤ h) (hne : 0 < d.length) :
    ∀ k i, i < d.length → d.length - i ≤ k →
      getE d (minKeyIdx d (blockStart h - (blockEnd h + 1 - d.length))
        (d.length - 1)) ≤ getE d i := by
  obtain ⟨hlow, hup⟩ := hH.2 hne
  have hlen := heightInv_len_le hH
  have hsE : blockEnd h = blockStart h + (h - 1) := by
    rw [blockEnd_eq_flat h h1]; rfl
  have hgeb : h - 1 ≤ blockStart h := blockStart_ge_sub_one h
  have hlohi : blockStart h - (blockEnd h + 1 - d.length) ≤ d.length - 1 := by omega
  obtain ⟨hm1, hm2, hm3⟩ := minKeyIdx_spec d _ _ hlohi
  intro k
  induction k with
  | zero =>
    intro i hi hk
    omega
  | succ k ih =>
    intro i hi hk
    by_cases hin : blockStart h - (blockEnd h + 1 - d.length) ≤ i
    · exact hm3 i hin (by omega)
    · push_neg at hin
      obtain ⟨b, p, hb, hp, he⟩ := cell_exists i
      have hble : b ≤ h := cell_block_le hlen (by rw [← he]; exact hi)
      have hfi : flatIdx b p = blockStart b + p := rfl
      have hfj : flatIdx (b + 1) p = blockStart (b + 1) + p := rfl
      have hbsucc : blockStart (b + 1) = blockStart b + b := blockStart_succ b
      have hbh : b < h := by
        by_contra hc
        have hbe : b = h := by omega
        rw [hbe] at hfi he
        omega
      have hparOf : parOf (b + 1) p b p :=
        ⟨by omega, by omega, rfl, Or.inr ⟨rfl, by omega⟩⟩
      have hjlt : flatIdx (b + 1) p < d.length := by
        by_cases hbh2 : b + 1 = h
        · rw [hbh2] at hfj hbsucc ⊢
          omega
        · have hmono : blockStart (b + 2) ≤ blockStart h := blockStart_mono (by omega)
          have hbsucc2 : blockStart (b + 2) = blockStart (b + 1) + (b + 1) :=
            blockStart_succ (b + 1)
          omega
      have hchild : getE d (flatIdx (b + 1) p) ≤ getE d i := by
        rw [he]
        exact hA (b + 1) p b p hparOf hjlt
      have hij : i < flatIdx (b + 1) p := by
        have := parOf_flat_lt hparOf
        omega
      exact le_trans (ih (flatIdx (b + 1) p) hjlt (by omega)) hchild

lemma tail_spec (bp : Beap α) (hV : bp.Valid) :
    (bp.tail = none ↔ bp.data = []) ∧
    (∀ v, bp.tail = some v → v ∈ bp.data ∧ ∀ x ∈ bp.data, v ≤ x) := by
  obtain ⟨hI, hH⟩ := hV
  have hA := (beapInv_iff_invAll _).mp hI
  rcases Nat.eq_zero_or_pos bp.data.length with h0 | h0
  · have hh0 : bp.height = 0 := hH.1.mpr h0
    have hnil : bp.data = [] := List.length_eq_zero.mp h0
    unfold Beap.tail
    rw [hh0]
    have hsp : span (0 : Nat) = (none : Option (Nat × Nat)) := rfl
    rw [hsp]
    exact ⟨by simp [hnil], by simp⟩
  · have hhpos : 0 < bp.height := by
      rcases Nat.eq_zero_or_pos bp.height with hz | hp
      · exact absurd (hH.1.mp hz) (by omega)
      · exact hp
    obtain ⟨hlow, hup⟩ := hH.2 h0
    have hne : bp.data ≠ [] := by
      intro hc
      rw [hc] at h0
      simp at h0
    have hsp : span bp.height = some (blockStart bp.height, blockEnd bp.height) := by
      unfold span
      rw [if_neg (by omega)]
    unfold Beap.tail
    rw [hsp]
    dsimp only
    by_cases h1 : bp.height = 1
    · rw [if_pos h1]
      have hn1 : bp.data.length = 1 := by
        rw [h1] at hlow hup
        have hb1 : blockStart 1 = 0 := rfl
        omega
      have hsing := singleton_of_len_one bp.data hn1
      rw [hsing]
      refine ⟨by simp, ?_⟩
      intro v hv
      simp only [List.head?_cons, Option.some.injEq] at hv
      rw [← hv]
      exact ⟨by simp, by simp⟩
    · rw [if_neg h1]
      have hsE : blockEnd bp.height = blockStart bp.height + (bp.height - 1) := by
        rw [blockEnd_eq_flat bp.height hhpos]; rfl
      have hhiE : blockEnd bp.height - (blockEnd bp.height + 1 - bp.data.length)
          = bp.data.length - 1 := by omega
      rw [hhiE]
      have hgeb : bp.height - 1 ≤ blockStart bp.height := blockStart_ge_sub_one bp.height
      have hlohi : blockStart bp.height - (blockEnd bp.height + 1 - bp.data.length)
          ≤ bp.data.length - 1 := by omega
      obtain ⟨hm1, hm2, _⟩ := minKeyIdx_spec bp.data _ _ hlohi
      have hmlt : minKeyIdx bp.data
          (blockStart bp.height - (blockEnd bp.height + 1 - bp.data.length))
          (bp.data.length - 1) < bp.data.length := by omega
      have hget : bp.data.get? (minKeyIdx bp.data
          (blockStart bp.height - (blockEnd bp.height + 1 - bp.data.length))
          (bp.data.length - 1)) = some (getE bp.data (minKeyIdx bp.data
          (blockStart bp.height - (blockEnd bp.height + 1 - bp.data.length))
          (bp.data.length - 1))) := by
        rw [List.get?_eq_getElem?, List.getElem?_eq_getElem hmlt,
          getE_eq_getElem _ _ hmlt]
      rw [hget]
      refine ⟨by simpa using hne, ?_⟩
      intro v hv
      simp only [Option.some.injEq] at hv
      rw [← hv]
      constructor
      · exact (mem_iff_getE _ _).2 ⟨_, hmlt, rfl⟩
      · intro x hx
        obtain ⟨i, hi, hei⟩ := (mem_iff_getE _ _).1 hx
        rw [← hei]
        exact tail_min_aux bp.data bp.height hA hH (by omega) h0
          bp.data.length i hi (by omega)

/-! ## `pushpop` against `push` followed by `pop` -/

lemma pushpop_spec (bp : Beap α) (x : α) (hV : bp.Valid) :
    some (bp.pushpop x).1 = ((bp.push x).pop).1 ∧
    ((bp.pushpop x).2.data : Multiset α) = (((bp.push x).pop).2.data : Multiset α) ∧
    (bp.pushpop x).2.Valid := by
  obtain ⟨hpV, hplen, hpperm⟩ := push_valid bp x hV
  have hpne : (bp.push x).data ≠ [] := by
    intro hc
    rw [hc] at hplen
    simp at hplen
  obtain ⟨hq1, hq2, hqperm, hqlen⟩ := pop_spec (bp.push x) hpV hpne
  have hpA := (beapInv_iff_invAll _).mp hpV.1
  have hA := (beapInv_iff_invAll _).mp hV.1
  have hplen0 : 0 < (bp.push x).data.length := by omega
  have hRmem : getE (bp.push x).data 0 ∈ x :: bp.data :=
    hpperm.mem_iff.mp ((mem_iff_getE _ _).2 ⟨0, hplen0, rfl⟩)
  have hRmax : ∀ y ∈ x :: bp.data, y ≤ getE (bp.push x).data 0 := by
    intro y hy
    obtain ⟨i, hi, he⟩ := (mem_iff_getE _ _).1 (hpperm.mem_iff.mpr hy)
    rw [← he]
    exact root_is_max _ hpA i hi
  have hqm : (getE (bp.push x).data 0 ::ₘ (((bp.push x).pop).2.data : Multiset α))
      = ((x :: bp.data : List α) : Multiset α) := by
    rw [← Multiset.cons_coe]
    exact Multiset.coe_eq_coe.mpr (hqperm.trans hpperm)
  unfold Beap.pushpop
  by_cases hcond : bp.data ≠ [] ∧ x < getE bp.data 0
  · rw [if_pos hcond]
    obtain ⟨hne0, hxlt⟩ := hcond
    have hn0 : 0 < bp.data.length := List.length_pos.mpr hne0
    have hR : getE (bp.push x).data 0 = getE bp.data 0 := by
      refine le_antisymm ?_ ?_
      · rcases List.mem_cons.mp hRmem with hc | hc
        · rw [hc]
          exact le_of_lt hxlt
        · obtain ⟨i, hi, he⟩ := (mem_iff_getE _ _).1 hc
          rw [← he]
          exact root_is_max _ hA i hi
      · exact hRmax _ (List.mem_cons_of_mem _ ((mem_iff_getE _ _).2 ⟨0, hn0, rfl⟩))
    refine ⟨?_, ?_, ?_⟩
    · rw [hq1, hR]
    · show ((siftdown bp.height (bp.data.set 0 x) 0 1 : List α) : Multiset α) = _
      have hL : ((siftdown bp.height (bp.data.set 0 x) 0 1 : List α) : Multiset α)
          = ((bp.data.set 0 x : List α) : Multiset α) :=
        Multiset.coe_eq_coe.mpr (siftdown_perm _ _ _ _)
      rw [hL]
      have hcs : (getE bp.data 0 ::ₘ ((bp.data.set 0 x : List α) : Multiset α))
          = ((x :: bp.data : List α) : Multiset α) := by
        rw [← Multiset.cons_coe]
        exact Multiset.coe_eq_coe.mpr (cons_set_perm bp.data 0 x hn0)
      rw [hR] at hqm
      exact (Multiset.cons_inj_right _).mp (hcs.trans hqm.symm)
    · constructor
      · exact (beapInv_iff_invAll _).mpr
          (rootRepl_ok bp.height bp.data x hA hn0 (heightInv_len_le hV.2))
      · show HeightInvP bp.height (siftdown bp.height (bp.data.set 0 x) 0 1).length
        rw [siftdown_length, List.length_set]
        exact hV.2
  · rw [if_neg hcond]
    have hR : getE (bp.push x).data 0 = x := by
      refine le_antisymm ?_ (hRmax x (List.mem_cons_self x bp.data))
      rcases List.mem_cons.mp hRmem with hc | hc
      · exact le_of_eq hc
      · have hne0 : bp.data ≠ [] := by
          intro hz
          rw [hz] at hc
          simp at hc
        have hxge : ¬ x < getE bp.data 0 := by
          intro hlt
          exact hcond ⟨hne0, hlt⟩
        obtain ⟨i, hi, he⟩ := (mem_iff_getE _ _).1 hc
        rw [← he]
        exact le_trans (root_is_max _ hA i hi) (le_of_not_lt hxge)
    refine ⟨?_, ?_, hV⟩
    · rw [hq1, hR]
    · rw [hR, ← Multiset.cons_coe] at hqm
      exact ((Multiset.cons_inj_right _).mp hqm).symm

/-! ## The mutable handles -/

lemma tailMut_bound (bp : Beap α) (hV : bp.Valid) :
    ∀ tm, bp.tailMut = some tm →
      tm.beap = bp ∧ tm.sift = false ∧ tm.pos < bp.data.length := by
  obtain ⟨hI, hH⟩ := hV
  intro tm htm
  rcases Nat.eq_zero_or_pos bp.data.length with h0 | h0
  · have hh0 : bp.height = 0 := hH.1.mpr h0
    unfold Beap.tailMut at htm
    rw [hh0] at htm
    have hsp : span (0 : Nat) = (none : Option (Nat × Nat)) := rfl
    rw [hsp] at htm
    cases htm
  · have hhpos : 0 < bp.height := by
      rcases Nat.eq_zero_or_pos bp.height with hz | hp
      · exact absurd (hH.1.mp hz) (by omega)
      · exact hp
    obtain ⟨hlow, hup⟩ := hH.2 h0
    have hsE : blockEnd bp.height = blockStart bp.height + (bp.height - 1) := by
      rw [blockEnd_eq_flat bp.height hhpos]; rfl
    have hgeb : bp.height - 1 ≤ blockStart bp.height := blockStart_ge_sub_one bp.height
    have hsp : span bp.height = some (blockStart bp.height, blockEnd bp.height) := by
      unfold span
      rw [if_neg (by omega)]
    unfold Beap.tailMut at htm
    rw [hsp] at htm
    dsimp only at htm
    have htm2 := (Option.some_inj.mp htm).symm
    rw [htm2]
    refine ⟨rfl, rfl, ?_⟩
    show minKeyIdx bp.data _ _ < bp.data.length
    have hhiE : blockEnd bp.height - (blockEnd bp.height + 1 - bp.data.length)
        = bp.data.length - 1 := by omega
    rw [hhiE]
    have hlohi : blockStart bp.height - (blockEnd bp.height + 1 - bp.data.length)
        ≤ bp.data.length - 1 := by omega
    obtain ⟨_, hm2, _⟩ := minKeyIdx_spec bp.data _ _ hlohi
    omega

/-! ## Concrete evaluations used by the closed theorems -/

lemma evalPush3 : applyOps (Beap.empty ℕ) [BOp.push 1, BOp.push 2, BOp.push 3]
    = ⟨[3, 1, 2], 2⟩ := by
  simp [applyOps, applyOp, Beap.push, Beap.empty, span, siftup, siftupGo,
    supParent, getE, swapL, blockStart, blockEnd]

lemma evalFrom5 : (beapFromList [-10, 1, 2, 3, 3] : Beap ℤ) = ⟨[3, 3, 2, 1, -10], 3⟩ := by
  have h40 : Nat.sqrt (8 * ([(-10 : ℤ), 1, 2, 3, 3]).length) = 6 := by
    rw [show 8 * ([(-10 : ℤ), 1, 2, 3, 3]).length = 40 from rfl]
    exact sqrt_eval 40 6 (by norm_num) (by norm_num)
  unfold beapFromList
  rw [h40]
  decide

lemma evalFrom3 : (beapFromList [-20, 5, 43] : Beap ℤ) = ⟨[43, 5, -20], 2⟩ := by
  have h24 : Nat.sqrt (8 * ([(-20 : ℤ), 5, 43]).length) = 4 := by
    rw [show 8 * ([(-20 : ℤ), 5, 43]).length = 24 from rfl]
    exact sqrt_eval 24 4 (by norm_num) (by norm_num)
  unfold beapFromList
  rw [h24]
  decide

lemma fromList_length (l : List α) : (beapFromList l).data.length = l.length :=
  sortDesc_length l

lemma pop_none_of_nil (bp : Beap α) (h : bp.data = []) : bp.pop.1 = none := by
  unfold Beap.pop
  rw [if_pos h]

lemma pops_drain : ∀ (k : Nat) (bp : Beap α), bp.Valid →
    (applyOps bp (List.replicate k BOp.pop)).data.length = bp.data.length - k := by
  intro k
  induction k with
  | zero =>
    intro bp _
    simp [applyOps]
  | succ k ih =>
    intro bp hV
    rw [List.replicate_succ]
    show (applyOps (applyOp bp BOp.pop) (List.replicate k BOp.pop)).data.length = _
    have hVp : (applyOp bp BOp.pop).Valid := applyOp_valid bp _ hV
    rw [ih _ hVp]
    show bp.pop.2.data.length - k = bp.data.length - (k + 1)
    by_cases hne : bp.data = []
    · unfold Beap.pop
      rw [if_pos hne]
      rw [hne]
      simp
    · have hl := (pop_spec bp hV hne).2.2.2
      omega

/-! # The claims -/

/-- C1: the claim's own invariant statement, taken literally, fails on a
plain push sequence: after pushing 1, 2, 3 into an empty beap the state is
`⟨[3, 1, 2], 2⟩`, which is a valid beap, yet the spec's "every element is
>= its parents" reads in the wrong direction and the spec's boundary
formula `span(height-1).end < len <= span(height).end` is off by one
(`blockEnd 2 = 2 < 3 = len`). -/
theorem C1_counterexample :
    (applyOps (Beap.empty ℕ) [BOp.push 1, BOp.push 2, BOp.push 3]).Valid ∧
    ¬ specClaimedInv (applyOps (Beap.empty ℕ) [BOp.push 1, BOp.push 2, BOp.push 3]).data ∧
    ¬ specClaimedBoundary
      (applyOps (Beap.empty ℕ) [BOp.push 1, BOp.push 2, BOp.push 3]).height
      (applyOps (Beap.empty ℕ) [BOp.push 1, BOp.push 2, BOp.push 3]).data.length := by
  rw [evalPush3]
  decide

/-- C1 (amended): an empty or bulk-constructed beap is valid, and every
sequence of public mutating operations (push, pop, replace, remove — merge
is excluded, see the C5 record) preserves validity: the beap invariant
`BeapInv` (each element `≤` its one or two parents in the previous block)
holds over the full backing sequence and `height` satisfies the
span-boundary invariant `HeightInvP` (`height = 0` iff the data is empty,
otherwise `span(height)` contains the last valid flat index). -/
theorem C1_invariant_preservation :
    ((Beap.empty α).Valid ∧ ∀ l : List α, (beapFromList l).Valid) ∧
    ∀ (bp : Beap α) (ops : List (BOp α)), bp.Valid → (applyOps bp ops).Valid :=
  ⟨⟨empty_valid, fromList_valid⟩, fun bp ops hV => applyOps_valid bp ops hV⟩

/-- C1 witness: the amended preservation applied to the concrete push
sequence of the counterexample. -/
theorem C1_witness :
    (applyOps (Beap.empty ℕ) [BOp.push 1, BOp.push 2, BOp.push 3]).Valid :=
  C1_invariant_preservation.2 (Beap.empty ℕ)
    [BOp.push 1, BOp.push 2, BOp.push 3] (by decide)

/-- C2: on a valid beap, `contains v` is true iff `v` is stored;
`remove v` succeeds iff `v` is stored, and on success the multiset of
elements shrinks by exactly one occurrence of `v`, so a second
`remove v` succeeds iff the original beap held at least two copies. -/
theorem C2_contains_remove (bp : Beap α) (v : α) (hV : bp.Valid) :
    (bp.contains v = true ↔ v ∈ bp.data) ∧
    ((bp.remove v).1 = true ↔ v ∈ bp.data) ∧
    ((bp.remove v).1 = true →
      ((bp.remove v).2.data : Multiset α) = (bp.data : Multiset α).erase v ∧
      (((bp.remove v).2.remove v).1 = true ↔
        2 ≤ Multiset.count v (bp.data : Multiset α))) := by
  obtain ⟨hiff, htrue, _⟩ := remove_spec bp v hV
  refine ⟨contains_iff bp v hV, hiff, ?_⟩
  intro ht
  obtain ⟨hperm, hval⟩ := htrue ht
  have hmem : v ∈ bp.data := hiff.mp ht
  have hms : (v ::ₘ ((bp.remove v).2.data : Multiset α)) = (bp.data : Multiset α) := by
    rw [Multiset.cons_coe]
    exact Multiset.coe_eq_coe.mpr hperm
  have her : ((bp.remove v).2.data : Multiset α) = (bp.data : Multiset α).erase v := by
    rw [← hms, Multiset.erase_cons_head]
  refine ⟨her, ?_⟩
  obtain ⟨hiff2, _, _⟩ := remove_spec (bp.remove v).2 v hval
  rw [hiff2]
  have hc1 : 0 < Multiset.count v (bp.data : Multiset α) :=
    Multiset.count_pos.mpr (Multiset.mem_coe.mpr hmem)
  have hc2 : Multiset.count v (((bp.remove v).2.data : Multiset α))
      = Multiset.count v (bp.data : Multiset α) - 1 := by
    rw [her, Multiset.count_erase_self]
  constructor
  · intro hm
    have := Multiset.count_pos.mpr (Multiset.mem_coe.mpr hm)
    omega
  · intro h2
    refine Multiset.mem_coe.mp (Multiset.count_pos.mp ?_)
    omega

/-- C2 witness: the contains/remove consistency on the concrete valid
beap `⟨[3, 1, 2], 2⟩` at value 1. -/
theorem C2_witness :
    ((⟨[3, 1, 2], 2⟩ : Beap ℕ).contains 1 = true ↔ 1 ∈ (⟨[3, 1, 2], 2⟩ : Beap ℕ).data) ∧
    (((⟨[3, 1, 2], 2⟩ : Beap ℕ).remove 1).1 = true ↔ 1 ∈ (⟨[3, 1, 2], 2⟩ : Beap ℕ).data) ∧
    (((⟨[3, 1, 2], 2⟩ : Beap ℕ).remove 1).1 = true →
      ((((⟨[3, 1, 2], 2⟩ : Beap ℕ).remove 1).2.data : Multiset ℕ)
        = (((⟨[3, 1, 2], 2⟩ : Beap ℕ).data : List ℕ) : Multiset ℕ).erase 1 ∧
      ((((⟨[3, 1, 2], 2⟩ : Beap ℕ).remove 1).2.remove 1).1 = true ↔
        2 ≤ Multiset.count 1 (((⟨[3, 1, 2], 2⟩ : Beap ℕ).data : List ℕ) : Multiset ℕ)))) :=
  C2_contains_remove (⟨[3, 1, 2], 2⟩ : Beap ℕ) 1 (by decide)

/-- C3: popping a beap built from any list to exhaustion returns exactly
that multiset in non-increasing order; concretely, the beap built from
`[3, 5, 1, 2, 4]` pops to `[5, 4, 3, 2, 1]`, after which `pop` reports
the absent signal `none`. -/
theorem C3_pop_order :
    (∀ l : List α, List.Perm ((beapFromList l).popAll) l ∧
      List.Sorted (fun a b => b ≤ a) ((beapFromList l).popAll)) ∧
    (beapFromList [3, 5, 1, 2, 4] : Beap ℕ).popAll = [5, 4, 3, 2, 1] ∧
    ((applyOps (beapFromList [3, 5, 1, 2, 4] : Beap ℕ)
      (List.replicate 5 BOp.pop)).pop).1 = none := by
  refine ⟨?_, ?_, ?_⟩
  · intro l
    obtain ⟨hp, hs⟩ := popAll_spec (beapFromList l) (fromList_valid l)
    exact ⟨hp.trans (sortDesc_perm l), hs⟩
  · obtain ⟨hp, hs⟩ := popAll_spec (beapFromList [3, 5, 1, 2, 4] : Beap ℕ)
      (fromList_valid _)
    haveI : IsAntisymm ℕ (fun a b => b ≤ a) := ⟨fun a b h1 h2 => le_antisymm h2 h1⟩
    have hperm2 : ((beapFromList [3, 5, 1, 2, 4] : Beap ℕ).popAll).Perm
        [5, 4, 3, 2, 1] := by
      refine hp.trans ?_
      show (sortDesc [3, 5, 1, 2, 4] : List ℕ).Perm [5, 4, 3, 2, 1]
      rw [show (sortDesc [3, 5, 1, 2, 4] : List ℕ) = [5, 4, 3, 2, 1] by decide]
    exact List.eq_of_perm_of_sorted hperm2 hs (by decide)
  · have hlen := pops_drain 5 (beapFromList [3, 5, 1, 2, 4] : Beap ℕ) (fromList_valid _)
    have hl5 : (beapFromList [3, 5, 1, 2, 4] : Beap ℕ).data.length = 5 := by
      rw [fromList_length]
      rfl
    refine pop_none_of_nil _ (List.length_eq_zero.mp (by omega))

/-- C4: on a valid beap, `pushpop x` returns the same value as `push x`
immediately followed by `pop` on a clone, and both final states hold the
same multiset of elements. -/
theorem C4_pushpop_equiv (bp : Beap α) (x : α) (hV : bp.Valid) :
    some (bp.pushpop x).1 = ((bp.push x).pop).1 ∧
    ((bp.pushpop x).2.data : Multiset α) = (((bp.push x).pop).2.data : Multiset α) :=
  ⟨(pushpop_spec bp x hV).1, (pushpop_spec bp x hV).2.1⟩

/-- C4 witness: pushpop equivalence on the concrete valid beap
`⟨[3, 1, 2], 2⟩` with pushed value 2. -/
theorem C4_witness :
    some ((⟨[3, 1, 2], 2⟩ : Beap ℕ).pushpop 2).1
      = (((⟨[3, 1, 2], 2⟩ : Beap ℕ).push 2).pop).1 ∧
    (((⟨[3, 1, 2], 2⟩ : Beap ℕ).pushpop 2).2.data : Multiset ℕ)
      = ((((⟨[3, 1, 2], 2⟩ : Beap ℕ).push 2).pop).2.data : Multiset ℕ) :=
  C4_pushpop_equiv (⟨[3, 1, 2], 2⟩ : Beap ℕ) 2 (by decide)

/-- C5: the merge scenario of the claim exhibits the bug: `append` moves
all elements over and sorts them descending, and empties the source, but
it never recomputes `self.height` — the merged beap keeps the stale
height 3 for its 8 elements, where the span-boundary invariant demands
height 4, so the merged result is not a valid beap. -/
theorem C5_append_stale_height :
    ((beapFromList [-10, 1, 2, 3, 3] : Beap ℤ).append (beapFromList [-20, 5, 43])).1
      = ⟨[43, 5, 3, 3, 2, 1, -10, -20], 3⟩ ∧
    ((beapFromList [-10, 1, 2, 3, 3] : Beap ℤ).append (beapFromList [-20, 5, 43])).2
      = ⟨[], 0⟩ ∧
    ¬ HeightInvP 3 8 ∧ HeightInvP 4 8 ∧
    ¬ ((beapFromList [-10, 1, 2, 3, 3] : Beap ℤ).append
        (beapFromList [-20, 5, 43])).1.Valid := by
  rw [evalFrom5, evalFrom3]
  exact ⟨by decide, rfl, by decide, by decide, by decide⟩

/-- C6: `remove_index` guards with `pos > len()` instead of
`pos >= len()`: at the out-of-range position `pos = len()` on the
singleton beap `⟨[5], 1⟩` it does not return the absent signal — it
returns `some 5` and empties the beap — while the read-only accessors
`get` and `get_mut` correctly return `none` there. -/
theorem C6_remove_index_out_of_range :
    (⟨[5], 1⟩ : Beap ℕ).Valid ∧
    (⟨[5], 1⟩ : Beap ℕ).data.length ≤ 1 ∧
    ((⟨[5], 1⟩ : Beap ℕ).removeIndex 1).1 = some 5 ∧
    ((⟨[5], 1⟩ : Beap ℕ).removeIndex 1).2 = ⟨[], 0⟩ ∧
    (⟨[5], 1⟩ : Beap ℕ).get 1 = none ∧
    ((⟨[5], 1⟩ : Beap ℕ).getMut 1).isNone = true := by
  decide

/-- C7: on a valid beap, `tail` returns `none` iff the beap is empty and
otherwise returns a stored element that is `≤` every stored element —
the scan over the occupied tail of the last block finds a global
minimum even when the last block is only partially filled. -/
theorem C7_tail_min (bp : Beap α) (hV : bp.Valid) :
    (bp.tail = none ↔ bp.data = []) ∧
    (∀ v, bp.tail = some v → v ∈ bp.data ∧ ∀ x ∈ bp.data, v ≤ x) :=
  tail_spec bp hV

/-- C7 witness: the tail characterization on the concrete valid beap
`⟨[9, 6, 3], 2⟩` (its last block is partially filled). -/
theorem C7_witness :
    ((⟨[9, 6, 3], 2⟩ : Beap ℕ).tail = none ↔ (⟨[9, 6, 3], 2⟩ : Beap ℕ).data = []) ∧
    (∀ v, (⟨[9, 6, 3], 2⟩ : Beap ℕ).tail = some v →
      v ∈ (⟨[9, 6, 3], 2⟩ : Beap ℕ).data ∧
      ∀ x ∈ (⟨[9, 6, 3], 2⟩ : Beap ℕ).data, v ≤ x) :=
  C7_tail_min (⟨[9, 6, 3], 2⟩ : Beap ℕ) (by decide)

/-- C8: for every flat index `pos ≥ 1`, the block number
`repairBlock pos = round(sqrt(2*(pos+1)))` computed by `repair` is the
unique block owning `pos`: its span `(b(b-1)/2, b(b+1)/2 - 1)` contains
`pos`, and no other block's span does. -/
theorem C8_repair_block (pos : Nat) (hpos : 1 ≤ pos) :
    span (repairBlock pos)
      = some (blockStart (repairBlock pos), blockEnd (repairBlock pos)) ∧
    blockStart (repairBlock pos) ≤ pos ∧ pos ≤ blockEnd (repairBlock pos) ∧
    ∀ b, 1 ≤ b → blockStart b ≤ pos → pos ≤ blockEnd b → b = repairBlock pos := by
  obtain ⟨b, p, hb, hp, he⟩ := cell_exists pos
  have hrb : repairBlock pos = b := by
    rw [he]
    exact repairBlock_eq hb hp (by omega)
  have hfe : flatIdx b p = blockStart b + p := rfl
  have hbe : blockEnd b = blockStart b + (b - 1) := by
    rw [blockEnd_eq_flat b hb]; rfl
  rw [hrb]
  refine ⟨?_, by omega, by omega, ?_⟩
  · unfold span
    rw [if_neg (by omega)]
  · intro b2 hb2 hlo hhi
    have hbe2 : blockEnd b2 = blockStart b2 + (b2 - 1) := by
      rw [blockEnd_eq_flat b2 hb2]; rfl
    rcases Nat.lt_trichotomy b2 b with hlt | heq | hgt
    · exfalso
      have h1 : blockStart (b2 + 1) ≤ blockStart b := blockStart_mono (by omega)
      have h2 : blockStart (b2 + 1) = blockStart b2 + b2 := blockStart_succ b2
      omega
    · omega
    · exfalso
      have h1 : blockStart (b + 1) ≤ blockStart b2 := blockStart_mono (by omega)
      have h2 : blockStart (b + 1) = blockStart b + b := blockStart_succ b
      omega

/-- C8 witness: block ownership of the concrete flat index 4 (owned by
block 3, whose span is `(3, 5)`). -/
theorem C8_witness :
    span (repairBlock 4) = some (blockStart (repairBlock 4), blockEnd (repairBlock 4)) ∧
    blockStart (repairBlock 4) ≤ 4 ∧ 4 ≤ blockEnd (repairBlock 4) ∧
    ∀ b, 1 ≤ b → blockStart b ≤ 4 → 4 ≤ blockEnd b → b = repairBlock 4 :=
  C8_repair_block 4 (by decide)

/-- C9: on a valid beap, releasing a `PeekMut` or `TailMut` handle that
was never mutably dereferenced returns the beap unchanged, and releasing
it after a mutable write triggers exactly one repair — sift-down from
the root for `PeekMut`, `repair` at the recorded position for `TailMut`
— after which the beap is valid again. -/
theorem C9_handles (bp : Beap α) (hV : bp.Valid) :
    (∀ pm, bp.peekMut = some pm →
      pmDrop pm = bp ∧ ∀ w, (pmDrop (pmWrite pm w)).Valid) ∧
    (∀ tm, bp.tailMut = some tm →
      tmDrop tm = bp ∧ ∀ w, (tmDrop (tmWrite tm w)).Valid) := by
  obtain ⟨hI, hH⟩ := hV
  have hA := (beapInv_iff_invAll _).mp hI
  constructor
  · intro pm hpm
    unfold Beap.peekMut at hpm
    by_cases hne : bp.data = []
    · rw [if_pos hne] at hpm
      cases hpm
    · rw [if_neg hne] at hpm
      have hpe := Option.some_inj.mp hpm
      rw [← hpe]
      have hn0 : 0 < bp.data.length := List.length_pos.mpr hne
      constructor
      · simp [pmDrop]
      · intro w
        show (Beap.mk (siftdown bp.height (bp.data.set 0 w) 0 1) bp.height).Valid
        refine ⟨(beapInv_iff_invAll _).mpr
          (rootRepl_ok bp.height bp.data w hA hn0 (heightInv_len_le hH)), ?_⟩
        show HeightInvP bp.height (siftdown bp.height (bp.data.set 0 w) 0 1).length
        rw [siftdown_length, List.length_set]
        exact hH
  · intro tm htm
    obtain ⟨hb, hs, hpos2⟩ := tailMut_bound bp ⟨hI, hH⟩ tm htm
    rcases tm with ⟨tbeap, tsift, tpos⟩
    dsimp only at hb hs hpos2
    subst hb
    subst hs
    constructor
    · simp [tmDrop]
    · intro w
      show (Beap.mk (repair tbeap.height (tbeap.data.set tpos w) tpos) tbeap.height).Valid
      refine ⟨(beapInv_iff_invAll _).mpr
        (setRepair_ok tbeap.height tbeap.data w tpos hA hpos2 (heightInv_len_le hH)), ?_⟩
      show HeightInvP tbeap.height (repair tbeap.height (tbeap.data.set tpos w) tpos).length
      rw [repair_length, List.length_set]
      exact hH

/-- C9 witness: the handle round-trips on the concrete valid beap
`⟨[9, 6, 3], 2⟩`. -/
theorem C9_witness :
    (∀ pm, (⟨[9, 6, 3], 2⟩ : Beap ℕ).peekMut = some pm →
      pmDrop pm = (⟨[9, 6, 3], 2⟩ : Beap ℕ) ∧ ∀ w, (pmDrop (pmWrite pm w)).Valid) ∧
    (∀ tm, (⟨[9, 6, 3], 2⟩ : Beap ℕ).tailMut = some tm →
      tmDrop tm = (⟨[9, 6, 3], 2⟩ : Beap ℕ) ∧ ∀ w, (tmDrop (tmWrite tm w)).Valid) :=
  C9_handles (⟨[9, 6, 3], 2⟩ : Beap ℕ) (by decide)

/-- C10: `siftup`, `siftdown` and `repair` only rearrange the backing
sequence: the stored multiset and the length are unchanged for every
state and every argument (and the `height` field, which these functions
never touch, is passed through unchanged by construction). -/
theorem C10_sift_multiset (height : Nat) (d : List α) (pos b : Nat) :
    ((siftup d pos b : List α) : Multiset α) = (d : Multiset α) ∧
    ((siftdown height d pos b : List α) : Multiset α) = (d : Multiset α) ∧
    ((repair height d pos : List α) : Multiset α) = (d : Multiset α) ∧
    (siftup d pos b).length = d.length ∧
    (siftdown height d pos b).length = d.length ∧
    (repair height d pos).length = d.length :=
  ⟨Multiset.coe_eq_coe.mpr (siftup_perm d pos b),
   Multiset.coe_eq_coe.mpr (siftdown_perm height d pos b),
   Multiset.coe_eq_coe.mpr (repair_perm height d pos),
   siftup_length d pos b, siftdown_length height d pos b,
   repair_length height d pos⟩
